import Mathlib

/-!
Verification of the mention-graph construction pipeline of the
Brazilian Senate / Chamber of Deputies transcript repository.

The development shallowly embeds the Python code of
`graph_creation/graph_joining.py` (name normalization, stateful identity
resolution, speech segmentation, graph construction), the span-merge
post-processing of `ner/ner.py` (`_merge_adjacent_entities`), and the
tag-insertion routine of `ner/create_annotations.py`
(`create_annotated_text`).  External library functions used by the code
(`fuzzywuzzy.fuzz.token_set_ratio`, `unidecode`, Python `str` methods and
`re` patterns specialised to the fixed regexes appearing in the source)
are modelled faithfully as executable Lean functions; floating-point
similarity scores are modelled with exact rational/integer arithmetic
(the scores compared against the thresholds 85 and 10 in the source are
ratios of small integers, rounded to integers).
-/

set_option maxRecDepth 65536

namespace PyStr

/-- Python `str` whitespace characters (the ones relevant to `\s`,
`str.split()` and `str.strip()` for the ASCII/Latin-1 texts handled by the
pipeline). -/
def isSpace (c : Char) : Bool :=
  c = ' ' || c = '\t' || c = '\n' || c = '\r' || c = '\x0b' || c = '\x0c'

/-- Python `str.strip()` on a character list. -/
def stripL (cs : List Char) : List Char :=
  ((cs.dropWhile isSpace).reverse.dropWhile isSpace).reverse

/-- Python `str.strip()`. -/
def strip (s : String) : String :=
  String.mk (stripL s.toList)

/-- Helper for `split`: accumulates the current word (reversed). -/
def splitGo : List Char → List Char → List String
  | [], acc => if acc.isEmpty then [] else [String.mk acc.reverse]
  | c :: rest, acc =>
    if isSpace c then
      if acc.isEmpty then splitGo rest []
      else String.mk acc.reverse :: splitGo rest []
    else splitGo rest (c :: acc)

/-- Python `str.split()` (split on whitespace runs, dropping empty parts). -/
def split (s : String) : List String := splitGo s.toList []

/-- Python `str.lower()` restricted to ASCII and Latin-1 letters
(the alphabets produced by this pipeline). -/
def lowerChar (c : Char) : Char :=
  if 'A' ≤ c ∧ c ≤ 'Z' then Char.ofNat (c.toNat + 32)
  else if 0xC0 ≤ c.toNat ∧ c.toNat ≤ 0xDE ∧ c.toNat ≠ 0xD7 then Char.ofNat (c.toNat + 32)
  else c

/-- Python `str.lower()`. -/
def lower (s : String) : String := String.mk (s.toList.map lowerChar)

def isAsciiUpper (c : Char) : Bool := 'A' ≤ c && c ≤ 'Z'

def isAsciiLower (c : Char) : Bool := 'a' ≤ c && c ≤ 'z'

def isAsciiLetter (c : Char) : Bool := isAsciiUpper c || isAsciiLower c

def isAsciiDigit (c : Char) : Bool := '0' ≤ c && c ≤ '9'

/-- Latin-1 letters (the accented range of the texts handled here). -/
def isLatin1Letter (c : Char) : Bool :=
  (0xC0 ≤ c.toNat && c.toNat ≤ 0xFF && c.toNat ≠ 0xD7 && c.toNat ≠ 0xF7)

/-- Python regex `\w` (word character) for the ASCII/Latin-1 texts handled
by this pipeline: letters, digits, underscore. -/
def isWordChar (c : Char) : Bool :=
  isAsciiLetter c || isAsciiDigit c || c = '_' || isLatin1Letter c

/-- `unidecode` of a single character, restricted to ASCII and the Latin-1
letters occurring in the transcripts (ASCII characters map to themselves,
accented Latin-1 letters fold to their base letters). -/
def unidecodeChar (c : Char) : String :=
  if c.toNat < 128 then String.mk [c] else
  match c with
  | 'À' | 'Á' | 'Â' | 'Ã' | 'Ä' | 'Å' => "A"
  | 'Ç' => "C"
  | 'È' | 'É' | 'Ê' | 'Ë' => "E"
  | 'Ì' | 'Í' | 'Î' | 'Ï' => "I"
  | 'Ñ' => "N"
  | 'Ò' | 'Ó' | 'Ô' | 'Õ' | 'Ö' => "O"
  | 'Ù' | 'Ú' | 'Û' | 'Ü' => "U"
  | 'Ý' => "Y"
  | 'à' | 'á' | 'â' | 'ã' | 'ä' | 'å' => "a"
  | 'ç' => "c"
  | 'è' | 'é' | 'ê' | 'ë' => "e"
  | 'ì' | 'í' | 'î' | 'ï' => "i"
  | 'ñ' => "n"
  | 'ò' | 'ó' | 'ô' | 'õ' | 'ö' => "o"
  | 'ù' | 'ú' | 'û' | 'ü' => "u"
  | 'ý' | 'ÿ' => "y"
  | 'Æ' => "AE"
  | 'æ' => "ae"
  | 'ß' => "ss"
  | _ => ""

/-- `unidecode.unidecode` on a string. -/
def unidecode (s : String) : String :=
  String.join (s.toList.map unidecodeChar)

/-- Python `" ".join(l)` (defined over lists so that it reduces in the
kernel). -/
def joinSpace : List String → String
  | [] => ""
  | h :: t => t.foldl (fun acc x => acc ++ " " ++ x) h

/-- Python string comparison `<` (lexicographic on code points) on
character lists. -/
def ltCharsL : List Char → List Char → Bool
  | [], [] => false
  | [], _ :: _ => true
  | _ :: _, [] => false
  | a :: as, b :: bs => if a.toNat < b.toNat then true
      else if b.toNat < a.toNat then false
      else ltCharsL as bs

/-- Python string comparison `<`. -/
def ltStr (a b : String) : Bool := ltCharsL a.toList b.toList

end PyStr

namespace Fuzz

/-!
Model of `fuzzywuzzy.fuzz.token_set_ratio` (the pure-Python backend built
on `difflib.SequenceMatcher`, which is what the similarity scores of the
source are specified against).  All strings compared in this pipeline are
short (well under the autojunk threshold of 200 characters), so the junk
heuristics of `SequenceMatcher` never fire and are omitted.
-/

/-- Result of `SequenceMatcher.find_longest_match`. -/
structure FLM where
  i : Nat
  j : Nat
  size : Nat
deriving Repr, DecidableEq

/-- `difflib.SequenceMatcher.find_longest_match` on `a[alo:ahi]` and
`b[blo:bhi]` (no junk: with short inputs the autojunk/popularity
heuristics are inactive, and the subsequent junk-extension loops are
no-ops). -/
def findLongestMatch (a b : List Char) (alo ahi blo bhi : Nat) : FLM :=
  let step := fun (acc : List (Nat × Nat) × FLM) (i : Nat) =>
    let j2len := acc.1
    let ch := a.getD i ' '
    let js := (List.range b.length).filter
      (fun j => decide (blo ≤ j) && decide (j < bhi) && b.getD j ' ' == ch)
    let inner := fun (acc2 : List (Nat × Nat) × FLM) (j : Nat) =>
      let k := (if j = 0 then 0 else ((j2len.lookup (j-1)).getD 0)) + 1
      let best2 := acc2.2
      let best3 := if k > best2.size then FLM.mk (i + 1 - k) (j + 1 - k) k else best2
      ((j, k) :: acc2.1, best3)
    let res := js.foldl inner ([], acc.2)
    (res.1, res.2)
  (((List.range' alo (ahi - alo)).foldl step ([], FLM.mk alo blo 0))).2

/-- Sum of the sizes of `SequenceMatcher.get_matching_blocks` (the only
quantity `ratio` needs).  `fuel` bounds the recursion depth; any fuel
greater than `ahi - alo` is sufficient. -/
def matchBlocksSum (a b : List Char) : Nat → Nat → Nat → Nat → Nat → Nat
  | 0, _, _, _, _ => 0
  | fuel + 1, alo, ahi, blo, bhi =>
    let r := findLongestMatch a b alo ahi blo bhi
    if r.size = 0 then 0
    else r.size + matchBlocksSum a b fuel alo r.i blo r.j
         + matchBlocksSum a b fuel (r.i + r.size) ahi (r.j + r.size) bhi

/-- Python `round` (banker's rounding, half to even) of `num / den`,
`den ≠ 0`. -/
def pyRound (num den : Nat) : Nat :=
  let q := num / den
  let r := num % den
  if 2 * r < den then q
  else if den < 2 * r then q + 1
  else if q % 2 = 0 then q else q + 1

/-- `fuzzywuzzy.fuzz.ratio`: 100 on equal strings, 0 if either string is
empty, otherwise `round(100 * 2M / T)` with `M` the matched-character
total of `SequenceMatcher` and `T` the total length. -/
def ratio (s1 s2 : String) : Nat :=
  if s1 = s2 then 100
  else if s1.length = 0 || s2.length = 0 then 0
  else
    let a := s1.toList
    let b := s2.toList
    let M := matchBlocksSum a b (a.length + b.length + 1) 0 a.length 0 b.length
    pyRound (200 * M) (a.length + b.length)

/-- `fuzzywuzzy.utils.full_process`: replace non-word characters with
whitespace, lowercase, strip. -/
def fullProcess (s : String) : String :=
  PyStr.strip (PyStr.lower (String.mk (s.toList.map
    (fun c => if PyStr.isWordChar c then c else ' '))))

/-- Remove duplicates keeping the first occurrence (models forming a
Python `set`; the set is sorted immediately afterwards, so iteration
order is irrelevant). -/
def dedup : List String → List String
  | [] => []
  | x :: xs => x :: (dedup xs).filter (fun y => y ≠ x)

/-- Insert into a lexicographically ascending list (Python `sorted`). -/
def insertAscStr (x : String) : List String → List String
  | [] => [x]
  | y :: ys => if PyStr.ltStr x y then x :: y :: ys else y :: insertAscStr x ys

/-- Python `sorted` on a list of strings. -/
def sortStr : List String → List String
  | [] => []
  | x :: xs => insertAscStr x (sortStr xs)

/-- `fuzzywuzzy.fuzz.token_set_ratio` (with the default
`full_process=True`): split both strings into token sets, compare the
sorted intersection against each sorted combination, and return the best
`ratio`. -/
def token_set_ratio (s1 s2 : String) : Nat :=
  let p1 := fullProcess s1
  let p2 := fullProcess s2
  if p1.length = 0 || p2.length = 0 then 0
  else
    let t1 := dedup (PyStr.split p1)
    let t2 := dedup (PyStr.split p2)
    let inter := t1.filter (fun x => t2.contains x)
    let d12 := t1.filter (fun x => ¬ t2.contains x)
    let d21 := t2.filter (fun x => ¬ t1.contains x)
    let sortedSect := PyStr.joinSpace (sortStr inter)
    let combined12 := PyStr.strip (sortedSect ++ " " ++ PyStr.joinSpace (sortStr d12))
    let combined21 := PyStr.strip (sortedSect ++ " " ++ PyStr.joinSpace (sortStr d21))
    let sect := PyStr.strip sortedSect
    max (ratio sect combined12) (max (ratio sect combined21) (ratio combined12 combined21))

end Fuzz

namespace NameNormalizer

/-!
Embedding of `graph_creation/graph_joining.py` class `NameNormalizer`.
The two `re.sub` calls of `_normalize` are transliterated as searches for
the leftmost position whose suffix matches the (end-anchored) pattern;
since both patterns are anchored at `$`, substitution removes everything
from that position on.
-/

/-- Does `cs` match the full party-state suffix pattern of `_normalize`,
`\s*` then a hyphen or slash, `\s*[A-Z]{2,}\s*` then a hyphen, then
`\s*[A-Z]{2}\s*` an optional `)` and `\s*$`?  The pattern is
deterministic: each starred class is disjoint from the class that follows
it, so greedy matching is exact. -/
def pat1Match (cs : List Char) : Bool :=
  let r0 := cs.dropWhile PyStr.isSpace
  match r0 with
  | c :: rest =>
    (c = '-' || c = '/') &&
    (let r1 := rest.dropWhile PyStr.isSpace
     let up := r1.takeWhile PyStr.isAsciiUpper
     let r2 := r1.dropWhile PyStr.isAsciiUpper
     decide (2 ≤ up.length) &&
     (match r2.dropWhile PyStr.isSpace with
      | '-' :: r3 =>
        (match r3.dropWhile PyStr.isSpace with
         | a :: b :: r4 =>
           PyStr.isAsciiUpper a && PyStr.isAsciiUpper b &&
           (let r5 := r4.dropWhile PyStr.isSpace
            let r6 := match r5 with
                      | ')' :: r => r
                      | r => r
            (r6.dropWhile PyStr.isSpace).isEmpty)
         | _ => false)
      | _ => false))
  | [] => false

/-- Leftmost index at which `pat1Match` holds on the suffix (the position
`re.sub` would substitute at). -/
def pat1Find : List Char → Option Nat
  | [] => none
  | c :: t => if pat1Match (c :: t) then some 0 else (pat1Find t).map (· + 1)

/-- Tail of the parenthesised-party pattern:
`([A-Z]+)\s*-\s*([A-Z]{2})\)\s*$` under `re.IGNORECASE` (so the letter
classes accept both cases).  Deterministic by class disjointness. -/
def pat2Tail (cs : List Char) : Bool :=
  let ls := cs.takeWhile PyStr.isAsciiLetter
  let r1 := cs.dropWhile PyStr.isAsciiLetter
  decide (1 ≤ ls.length) &&
  (match r1.dropWhile PyStr.isSpace with
   | '-' :: r2 =>
     (match r2.dropWhile PyStr.isSpace with
      | a :: b :: ')' :: r3 =>
        PyStr.isAsciiLetter a && PyStr.isAsciiLetter b &&
        (r3.dropWhile PyStr.isSpace).isEmpty
      | _ => false)
   | _ => false)

/-- Case-insensitive literal-prefix test (for the alternation branches
`Bloco|Partido` of the second pattern and the title regexes). -/
def ciStarts (lit : List Char) (cs : List Char) : Bool :=
  match lit, cs with
  | [], _ => true
  | _ :: _, [] => false
  | l :: ls, c :: rest => PyStr.lowerChar c = l && ciStarts ls rest

/-- Does `cs` match the full pattern
`\s*\((?:Bloco|Partido|\w+/)?([A-Z]+)\s*-\s*([A-Z]{2})\)\s*$`
(`re.IGNORECASE`)?  The optional alternation is tried in all branches
(order is irrelevant for a boolean match). -/
def pat2Match (cs : List Char) : Bool :=
  match cs.dropWhile PyStr.isSpace with
  | '(' :: r =>
    (ciStarts "bloco".toList r && pat2Tail (r.drop 5)) ||
    (ciStarts "partido".toList r && pat2Tail (r.drop 7)) ||
    (let w := r.takeWhile PyStr.isWordChar
     let r2 := r.dropWhile PyStr.isWordChar
     decide (1 ≤ w.length) &&
     (match r2 with
      | '/' :: r3 => pat2Tail r3
      | _ => false)) ||
    pat2Tail r
  | _ => false

/-- Leftmost index at which `pat2Match` holds on the suffix. -/
def pat2Find : List Char → Option Nat
  | [] => none
  | c :: t => if pat2Match (c :: t) then some 0 else (pat2Find t).map (· + 1)

/-- Apply an end-anchored substitution: delete the suffix starting at the
leftmost match position, then `strip` (the source chains `.strip()` after
each `re.sub`). -/
def subAnchored (find : List Char → Option Nat) (s : String) : String :=
  match find s.toList with
  | none => PyStr.strip s
  | some i => PyStr.strip (String.mk (s.toList.take i))

/-- The fixed title list of `_normalize`. -/
def titles : List String :=
  ["sr", "sra", "dr", "dra", "deputado", "deputada", "senador", "senadora", "presidente"]

/-- `re.sub(r"^" + title + r"\.?\s+", "", name, count=1, IGNORECASE)`
followed by `.strip()`: if the name starts (case-insensitively) with the
title, an optional period, and at least one whitespace character, drop
that prefix; otherwise leave the name unchanged.  Then strip. -/
def titleSub (title : String) (name : String) : String :=
  let cs := name.toList
  if ciStarts title.toList cs then
    let rest := cs.drop title.length
    match rest with
    | '.' :: r2 =>
      if (r2.headD 'x') |> PyStr.isSpace then
        PyStr.strip (String.mk (r2.dropWhile PyStr.isSpace))
      else PyStr.strip name
    | c :: r2 =>
      if PyStr.isSpace c then
        PyStr.strip (String.mk ((c :: r2).dropWhile PyStr.isSpace))
      else PyStr.strip name
    | [] => PyStr.strip name
  else PyStr.strip name

/-- The title-stripping loop of `_normalize`: find the first title (in
list order) such that `name.lower()` starts with `title + " "` or
`title + "."`, substitute it away, and stop. -/
def stripTitle (name : String) : String :=
  let temp := PyStr.lower name
  match titles.find? (fun t => (t ++ " ").toList.isPrefixOf temp.toList ||
      (t ++ ".").toList.isPrefixOf temp.toList) with
  | some t => titleSub t name
  | none => name

/-- Characters removed by `re.sub(r"[.,;:!?()\"\\]", "", name)`. -/
def isPunct (c : Char) : Bool :=
  c = '.' || c = ',' || c = ';' || c = ':' || c = '!' || c = '?' ||
  c = '(' || c = ')' || c = '"' || c = '\\'

/-- `NameNormalizer._normalize`.  The Python function returns the falsy
values `""` (for falsy input) and `None` (for a result shorter than 2
characters); the caller only tests falsiness, so both are modelled as
`none`. -/
def normalize (name : String) : Option String :=
  if name = "" then none
  else
    let n1 := subAnchored pat1Find name
    let n2 := subAnchored pat2Find n1
    let n3 := stripTitle n2
    let n4 := PyStr.lower (PyStr.unidecode n3)
    let n5 := String.mk (n4.toList.filter (fun c => ¬ isPunct c))
    let n6 := PyStr.joinSpace (PyStr.split n5)
    if n6.length < 2 then none else some n6

/-- A canonical-identity record (the dict
`{"canonical_name": ..., "original_names": {...}}` of the source).  The
Python variant set is modelled as an insertion-ordered duplicate-free
list. -/
structure Entry where
  canonical_name : String
  original_names : List String
deriving Repr, DecidableEq

/-- State of a `NameNormalizer` instance.  Python aliases one record dict
under several normalized keys (`self.norm_to_canonical[k] = entry`), so
the mapping stores indices into a record store: two keys mapping to the
same index share one mutable record, exactly like the dict aliasing of
the source.  `norm_to_canonical` and `conflicts` are insertion-ordered
(Python dicts preserve insertion order). -/
structure NState where
  norm_to_canonical : List (String × Nat)
  records : List Entry
  conflicts : List String
deriving Repr, DecidableEq

/-- The freshly constructed `NameNormalizer()`. -/
def initState : NState := ⟨[], [], []⟩

/-- First-binding association lookup (Python dict access). -/
def lookupKey : List (String × Nat) → String → Option Nat
  | [], _ => none
  | p :: t, k => if p.1 = k then some p.2 else lookupKey t k

/-- `set.add` on the insertion-ordered list model of a Python set. -/
def setInsert (s : List String) (x : String) : List String :=
  if x ∈ s then s else s ++ [x]

/-- Python `max(xs, key=len)`: the first element of maximal length in
iteration order (for the variant sets of this pipeline the iteration
order of the underlying hash set is modelled as insertion order; the
claims proved below do not depend on tie order). -/
def maxByLen : List String → String
  | [] => ""
  | h :: t => t.foldl (fun best x => if best.length < x.length then x else best) h

/-- The default entry used for out-of-range record accesses (unreachable
from `initState`; it makes the state functions total). -/
def defaultEntry : Entry := ⟨"", []⟩

/-- The candidate list of `get_canonical_name`: every existing
non-conflicted normalized key whose `token_set_ratio` against
`normalized_name` is at least 85, paired with its score, in map
iteration (= insertion) order. -/
def potentialMatches (st : NState) (normalized_name : String) : List (String × Nat) :=
  ((st.norm_to_canonical.filter (fun p => ¬ p.1 ∈ st.conflicts)).map
    (fun p => (p.1, Fuzz.token_set_ratio normalized_name p.1))).filter
    (fun q => 85 ≤ q.2)

/-- Stable insertion into a score-descending list (`list.sort` with
`reverse=True` is stable: an earlier element precedes later elements of
equal score). -/
def insertDesc (x : String × Nat) : List (String × Nat) → List (String × Nat)
  | [] => [x]
  | y :: ys => if y.2 ≤ x.2 then x :: y :: ys else y :: insertDesc x ys

/-- `potential_matches.sort(key=lambda x: x[1], reverse=True)`. -/
def sortDesc : List (String × Nat) → List (String × Nat)
  | [] => []
  | x :: xs => insertDesc x (sortDesc xs)

/-- The merge step shared by the one-candidate case and the
confident-top-match case of `get_canonical_name`: add the raw name to the
matched record's variant set, recompute the canonical name as the longest
variant, alias the new normalized key to the same record, and return the
new canonical name. -/
def mergeWith (st : NState) (normalized_name original_name matched_norm : String) :
    Option String × NState :=
  match lookupKey st.norm_to_canonical matched_norm with
  | some rid =>
    let e := st.records.getD rid defaultEntry
    let names := setInsert e.original_names original_name
    let new_canonical := maxByLen names
    (some new_canonical,
     { st with records := st.records.set rid ⟨new_canonical, names⟩,
               norm_to_canonical := st.norm_to_canonical ++ [(normalized_name, rid)] })
  | none => (some original_name, st)

/-- `NameNormalizer.get_canonical_name`.  Returns the Python return value
(`none` models Python `None`) together with the updated state. -/
def get_canonical_name (st : NState) (original_name : String) : Option String × NState :=
  if original_name = "" then (none, st)
  else
    match normalize original_name with
    | none => (some original_name, st)
    | some normalized_name =>
      if normalized_name ∈ st.conflicts then (some original_name, st)
      else
        match lookupKey st.norm_to_canonical normalized_name with
        | some rid =>
          let e := st.records.getD rid defaultEntry
          let c := if e.canonical_name.length < original_name.length
                   then original_name else e.canonical_name
          (some c,
           { st with records := st.records.set rid ⟨c, setInsert e.original_names original_name⟩ })
        | none =>
          match potentialMatches st normalized_name with
          | [] =>
            (some original_name,
             { st with norm_to_canonical :=
                         st.norm_to_canonical ++ [(normalized_name, st.records.length)],
                       records := st.records ++ [⟨original_name, [original_name]⟩] })
          | [m] => mergeWith st normalized_name original_name m.1
          | m0 :: m1 :: rest =>
            let sorted := sortDesc (m0 :: m1 :: rest)
            match sorted with
            | s0 :: s1 :: _ =>
              if s1.2 + 10 ≤ s0.2 then mergeWith st normalized_name original_name s0.1
              else (some original_name, { st with conflicts := st.conflicts ++ [normalized_name] })
            | _ =>
              (some original_name, { st with conflicts := st.conflicts ++ [normalized_name] })

/-- Resolve a list of raw names in order, threading the state (one
resolution session). -/
def resolveAll (st : NState) (names : List String) : NState :=
  names.foldl (fun s n => (get_canonical_name s n).2) st

end NameNormalizer

namespace Pipeline

open NameNormalizer

/-!
Embedding of `split_into_speeches`, `extract_speaker_and_mentions` and
`create_graph` from `graph_creation/graph_joining.py`.
-/

/-- Word-boundary test `\b` of the speaker-introduction lookahead at an
index `i` of the text: the next character is a word character (`O`/`A`)
and the previous one, if any, is not. -/
def boundaryBefore (cs : List Char) (i : Nat) : Bool :=
  i = 0 || ¬ PyStr.isWordChar (cs.getD (i - 1) ' ')

/-- The role alternatives `PRESIDENTE|DEPUTADO|DEPUTADA|SENADOR|SENADORA|DR|DRA`
of the speaker-introduction pattern (matched case-insensitively and in
this order; order is irrelevant for a boolean lookahead). -/
def roleWords : List String :=
  ["presidente", "deputado", "deputada", "senador", "senadora", "dr", "dra"]

/-- Letters accepted by `[A-ZÀ-Ú]` under `re.IGNORECASE`. -/
def isIntroCap (c : Char) : Bool :=
  PyStr.isAsciiLetter c ||
  (0xC0 ≤ c.toNat && c.toNat ≤ 0xDA) || (0xE0 ≤ c.toNat && c.toNat ≤ 0xFA)

/-- The branch `[A-ZÀ-Ú]+(?:\.\s*)?\b` of the alternation: a maximal
letter run (shorter runs cannot satisfy the pattern, so maximal munch is
exact), then either no period — boundary after a letter — or a period
followed by whitespace and a word character (backtracking inside `\s*`
never creates a boundary between two non-word characters). -/
def capsWordMatch (cs : List Char) : Bool :=
  let run := cs.takeWhile isIntroCap
  let rest := cs.dropWhile isIntroCap
  decide (1 ≤ run.length) &&
  ((match rest with
    | [] => true
    | c :: _ => ¬ PyStr.isWordChar c) ||
   (match rest with
    | '.' :: r2 => PyStr.isWordChar ((r2.dropWhile PyStr.isSpace).headD ' ')
    | _ => false))

/-- One alternative of the role alternation followed by `\b`. -/
def roleMatch (w : String) (cs : List Char) : Bool :=
  ciStarts w.toList cs &&
  (let rest := cs.drop w.length
   match rest with
   | [] => true
   | c :: _ => ¬ PyStr.isWordChar c)

/-- The lookahead body
`(?:O|A)\s+SR(?:A)?\.\s+(?:PRESIDENTE|...|DRA|[A-ZÀ-Ú]+(?:\.\s*)?)\b`
(`re.IGNORECASE`) matched against a suffix of the text. -/
def introFrom (cs : List Char) : Bool :=
  match cs with
  | c1 :: rest =>
    (PyStr.lowerChar c1 = 'o' || PyStr.lowerChar c1 = 'a') &&
    (let ws1 := rest.takeWhile PyStr.isSpace
     let r1 := rest.dropWhile PyStr.isSpace
     decide (1 ≤ ws1.length) &&
     (match r1 with
      | s :: r :: r2 =>
        PyStr.lowerChar s = 's' && PyStr.lowerChar r = 'r' &&
        (let afterDot := fun (cs2 : List Char) =>
           let ws2 := cs2.takeWhile PyStr.isSpace
           let r3 := cs2.dropWhile PyStr.isSpace
           decide (1 ≤ ws2.length) &&
           (roleWords.any (fun w => roleMatch w r3) || capsWordMatch r3)
         match r2 with
         | a :: '.' :: r4 =>
           if PyStr.lowerChar a = 'a' then afterDot r4
           else false
         | '.' :: r4 => afterDot r4
         | _ => false)
      | _ => false))
  | [] => false

/-- All indices of the text at which the zero-width split pattern of
`split_into_speeches` matches (word boundary followed by the intro
pattern). -/
def splitPositions (cs : List Char) : List Nat :=
  (List.range (cs.length + 1)).filter
    (fun i => boundaryBefore cs i && introFrom (cs.drop i))

/-- Cut a list at ascending positions: pieces before, between and after
the positions (the behaviour of `re.split` on zero-width matches). -/
def cutAt (cs : List Char) : List Nat → Nat → List (List Char)
  | [], start => [cs.drop start]
  | p :: ps, start => (cs.drop start).take (p - start) :: cutAt cs ps p

/-- `split_into_speeches`: split at each lookahead match and keep the
stripped non-empty pieces. -/
def split_into_speeches (text : String) : List String :=
  let cs := text.toList
  ((cutAt cs (splitPositions cs) 0).map (fun p => PyStr.strip (String.mk p))).filter
    (fun s => s ≠ "")

/-- `re.findall(r"<PESSOA:([^>]+)>", text)`: scan left to right; on a
match continue after it, otherwise advance one character. -/
def findTagsGo : Nat → List Char → List String
  | 0, _ => []
  | _ + 1, [] => []
  | fuel + 1, c :: rest =>
    if "<PESSOA:".toList.isPrefixOf (c :: rest) then
      let after := (c :: rest).drop 8
      let nm := after.takeWhile (fun x => x ≠ '>')
      let r2 := after.dropWhile (fun x => x ≠ '>')
      match nm, r2 with
      | _ :: _, '>' :: r3 => String.mk nm :: findTagsGo fuel r3
      | _, _ => findTagsGo fuel rest
    else findTagsGo fuel rest

/-- The `<PESSOA:name>` tag names of a speech, in order. -/
def findPessoaTags (s : String) : List String :=
  findTagsGo s.toList.length s.toList

/-- Python truthiness of the resolver's return value (`None` and `""` are
falsy). -/
def truthy : Option String → Bool
  | none => false
  | some s => s ≠ ""

/-- Remove duplicates keeping the first occurrence: models
`list(set(mentions_canonical))`.  (CPython returns the set's hash
iteration order; every property proved below is insensitive to the order
of this list, so insertion order is used.) -/
def pyDedup : List String → List String
  | [] => []
  | x :: xs => x :: (pyDedup xs).filter (fun y => y ≠ x)

/-- The body of the mention loop of `extract_speaker_and_mentions`: a
resolved mention is kept when it is truthy and differs from the resolved
speaker. -/
def mentionStep (speaker_canonical : Option String)
    (acc : List String × NState) (m : String) : List String × NState :=
  let r := get_canonical_name acc.2 m
  match r.1 with
  | some mc =>
    if mc ≠ "" ∧ some mc ≠ speaker_canonical then (acc.1 ++ [mc], r.2)
    else (acc.1, r.2)
  | none => (acc.1, r.2)

/-- `extract_speaker_and_mentions`: the first tag is the speaker, the
remaining tags are resolved and kept when truthy and different from the
resolved speaker; the mention list is deduplicated. -/
def extract_speaker_and_mentions (st : NState) (speech : String) :
    (Option String × List String) × NState :=
  match findPessoaTags speech with
  | [] => ((none, []), st)
  | speaker_original :: restTags =>
    let sres := get_canonical_name st speaker_original
    let fold := restTags.foldl (mentionStep sres.1) ([], sres.2)
    ((sres.1, pyDedup fold.1), fold.2)

/-- The mention graph: nodes in insertion order, edges as
(source, target, weight) triples in insertion order. -/
structure Graph where
  nodes : List String
  edges : List (String × String × Nat)
deriving Repr, DecidableEq

def emptyGraph : Graph := ⟨[], []⟩

/-- `graph.add_node` guarded by the `node_map` check of `create_graph`:
adding an existing node is a no-op. -/
def addNode (g : Graph) (x : String) : Graph :=
  if x ∈ g.nodes then g else { g with nodes := g.nodes ++ [x] }

/-- Add or update an edge weight: increment an existing edge, otherwise
append the edge with weight 1. -/
def incEdge (g : Graph) (u v : String) : Graph :=
  if (g.edges.find? (fun e => e.1 = u ∧ e.2.1 = v)).isSome then
    let bumped := g.edges.map
      (fun e => if e.1 = u ∧ e.2.1 = v then (e.1, e.2.1, e.2.2 + 1) else e)
    { g with edges := bumped }
  else { g with edges := g.edges ++ [(u, v, 1)] }

/-- The per-segment body of the `create_graph` loop. -/
def processSegment (g : Graph) (p : Option String × List String) : Graph :=
  if truthy p.1 then
    match p.1 with
    | some speaker =>
      let g1 := addNode g speaker
      p.2.foldl (fun gm m =>
        if m = "" then gm else incEdge (addNode gm m) speaker m) g1
    | none => g
  else g

/-- One speech inside the `create_graph` loop: extract the segment with
the shared resolver and fold it into the graph. -/
def graphStep (a : NState × Graph) (speech : String) : NState × Graph :=
  ((extract_speaker_and_mentions a.1 speech).2,
   processSegment a.2 (extract_speaker_and_mentions a.1 speech).1)

/-- The document/speech loop of `create_graph`, threading the shared
resolver state and the graph. -/
def processDoc (acc : NState × Graph) (doc : String) : NState × Graph :=
  (split_into_speeches doc).foldl graphStep acc

/-- `create_graph` on a corpus (the list of successfully read document
texts, in sorted filename order; file I/O is outside the model). -/
def create_graph (docs : List String) : Graph :=
  (docs.foldl processDoc (initState, emptyGraph)).2

/-- One speech of the same traversal, collecting the segment instead of
folding it into a graph. -/
def segStep (a : NState × List (Option String × List String)) (speech : String) :
    NState × List (Option String × List String) :=
  ((extract_speaker_and_mentions a.1 speech).2,
   a.2 ++ [(extract_speaker_and_mentions a.1 speech).1])

/-- One document of the collecting traversal. -/
def segDoc (acc : NState × List (Option String × List String)) (doc : String) :
    NState × List (Option String × List String) :=
  (split_into_speeches doc).foldl segStep acc

/-- The same traversal as `create_graph`, collecting the
(speaker, mentions) pairs of every speech segment in processing order
(used to state which canonical names appear in the run). -/
def corpusSegments (docs : List String) : List (Option String × List String) :=
  (docs.foldl segDoc (initState, [])).2

end Pipeline

namespace NER

/-!
Embedding of `IntegratedNERProcessor._merge_adjacent_entities` from
`ner/ner.py`.  Offsets are Python integers (`Int`); confidence scores are
floats on which the function only takes `min`, modelled exactly by `ℚ`.
-/

/-- One entity dict of the NER pipeline (the keys used by
`_merge_adjacent_entities`). -/
structure Entity where
  entity_group : String
  word : String
  start : Int
  stop : Int
  score : ℚ
deriving Repr, DecidableEq

/-- Python `str.isupper()`: at least one cased character and every cased
character uppercase (cased = ASCII/Latin-1 letters here). -/
def pyIsUpper (s : String) : Bool :=
  let cased := s.toList.filter
    (fun c => PyStr.isAsciiLetter c || PyStr.isLatin1Letter c)
  ¬ cased.isEmpty && cased.all (fun c => PyStr.lowerChar c ≠ c)

/-- Stable ascending insertion by `start`
(`entities.sort(key=lambda x: x["start"])`). -/
def insertByStart (x : Entity) : List Entity → List Entity
  | [] => [x]
  | y :: ys => if x.start ≤ y.start then x :: y :: ys else y :: insertByStart x ys

/-- Stable sort by `start`. -/
def sortByStart : List Entity → List Entity
  | [] => []
  | x :: xs => insertByStart x (sortByStart xs)

/-- The first-pass merge condition of `_merge_adjacent_entities`. -/
def shouldMerge (last entity : Entity) : Bool :=
  entity.entity_group = last.entity_group &&
  entity.start ≤ last.stop + 1 &&
  (pyIsUpper entity.word || pyIsUpper last.word || entity.start ≤ last.stop)

/-- The first-pass merged entity: overlapping spans concatenate without
the overlap, adjacent spans join with a single space; the end extends to
the later end and the score is the minimum. -/
def mergeEnt (last entity : Entity) : Entity :=
  let overlap : Int := last.stop - entity.start
  let word := if 0 ≤ overlap then
                last.word ++ String.mk (entity.word.toList.drop overlap.toNat)
              else last.word ++ " " ++ entity.word
  let stop := if last.stop < entity.stop then entity.stop else last.stop
  ⟨last.entity_group, word, last.start, stop, min last.score entity.score⟩

/-- One step of the first pass, accumulating the merged list in reverse
(the head is `merged[-1]`). -/
def pass1Step (acc : List Entity) (entity : Entity) : List Entity :=
  match acc with
  | [] => [entity]
  | last :: rest =>
    if shouldMerge last entity then mergeEnt last entity :: rest
    else entity :: last :: rest

/-- The second-pass join condition (1-character gap, same label). -/
def shouldJoin (last ent : Entity) : Bool :=
  ent.entity_group = last.entity_group && ent.start - last.stop = 1

/-- One step of the second pass. -/
def pass2Step (acc : List Entity) (ent : Entity) : List Entity :=
  match acc with
  | [] => [ent]
  | last :: rest =>
    if shouldJoin last ent then
      ⟨last.entity_group, last.word ++ " " ++ ent.word, last.start, ent.stop,
       min last.score ent.score⟩ :: rest
    else ent :: last :: rest

/-- `_merge_adjacent_entities`: sort by start, merge
adjacent/overlapping same-label spans, then join remaining same-label
spans with a 1-character gap. -/
def merge_adjacent_entities (entities : List Entity) : List Entity :=
  match entities with
  | [] => []
  | _ =>
    let sorted := sortByStart entities
    let merged := (sorted.foldl pass1Step []).reverse
    (merged.foldl pass2Step []).reverse

end NER

namespace Annot

/-!
Embedding of `create_annotated_text` from `ner/create_annotations.py`,
over character lists (Python string slicing is by code points).
-/

/-- A position entry `(pos, é_início, nome_entidade)`. -/
structure Pos where
  pos : Nat
  isStart : Bool
  name : List Char
deriving Repr, DecidableEq

/-- Python tuple comparison `(pos, is_start, name) < ...`
(bool `False < True`, strings by code points). -/
def posLt (a b : Pos) : Bool :=
  a.pos < b.pos ||
  (a.pos = b.pos &&
    ((¬ a.isStart && b.isStart) ||
     (a.isStart = b.isStart && PyStr.ltCharsL a.name b.name)))

/-- Stable descending insertion (`positions.sort(reverse=True)` keeps
equal tuples in their original order; distinct behaviour only matters up
to tuple equality, and equal tuples denote identical insertions). -/
def insertPosDesc (x : Pos) : List Pos → List Pos
  | [] => [x]
  | y :: ys => if posLt x y then y :: insertPosDesc x ys else x :: y :: ys

/-- `positions.sort(reverse=True)`. -/
def sortPosDesc : List Pos → List Pos
  | [] => []
  | x :: xs => insertPosDesc x (sortPosDesc xs)

/-- Build the position list of `create_annotated_text` from the grouped
entities (each occurrence contributes its start and end; the trailing
confidence of an occurrence triple is ignored by the source via `*_`). -/
def positionsOf (grouped : List (List Char × List (Nat × Nat))) : List Pos :=
  grouped.foldl
    (fun acc g => acc ++ g.2.foldl
      (fun acc2 occ => acc2 ++ [Pos.mk occ.1 true g.1, Pos.mk occ.2 false g.1]) []) []

/-- The tag text inserted for a position entry. -/
def tagOf (p : Pos) : List Char :=
  if p.isStart then "<PESSOA:".toList ++ p.name ++ [ '>' ]
  else "</PESSOA>".toList

/-- Insert one tag at a character position
(`annotated[:pos] + tag + annotated[pos:]`). -/
def insertTag (text : List Char) (p : Pos) : List Char :=
  text.take p.pos ++ tagOf p ++ text.drop p.pos

/-- `create_annotated_text`: sort all positions in descending tuple order
and insert the tags back to front. -/
def create_annotated_text (original : List Char)
    (grouped : List (List Char × List (Nat × Nat))) : List Char :=
  (sortPosDesc (positionsOf grouped)).foldl insertTag original

/-- A string is one of the inserted annotation tags. -/
def IsTag (t : List Char) : Prop :=
  t = "</PESSOA>".toList ∨ ∃ n : List Char, t = "<PESSOA:".toList ++ n ++ [ '>' ]

end Annot

/-!
Claim theorems.
-/

/-- C4 (counterexample): `normalize("O SR. JOÃO DA SILVA - PT-CE")` does
not return `"joao da silva"`: the leading honorific is preceded by the
article `"O"`, so no title of the fixed list is found at the start of the
string and the honorific survives. -/
theorem C4_counterexample :
    NameNormalizer.normalize "O SR. JOÃO DA SILVA - PT-CE" ≠ some "joao da silva" := by
  decide

/-- C4 (amended): `normalize("O SR. JOÃO DA SILVA - PT-CE")` returns
`"o sr joao da silva"`: the party-state suffix, the accents and the
punctuation are removed, but the leading honorific `SR.` is not, because
it is preceded by the article `O` and the title strip only fires on a
title at the very beginning of the string. -/
theorem C4_amended :
    NameNormalizer.normalize "O SR. JOÃO DA SILVA - PT-CE" = some "o sr joao da silva" := by
  decide

/-- C7 (counterexample): resolving the empty raw name does not return the
empty string: the source's `if not original_name: return None` returns
Python `None` (modelled `none`), not `""`. -/
theorem C7_counterexample :
    (NameNormalizer.get_canonical_name NameNormalizer.initState "").1 ≠ some "" := by
  decide

/-- C7 (amended): resolving the empty raw name returns Python `None`
(not the empty string) and leaves the resolver's mapping and conflict set
unmodified. -/
theorem C7_amended (st : NameNormalizer.NState) :
    NameNormalizer.get_canonical_name st "" = (none, st) := by
  simp [NameNormalizer.get_canonical_name]

/-- Document A of the C1 corpus: one speech segment whose speaker tag is
`Jaques Wagner` and whose single mention tag is `Soraya`. -/
def docA_C1 : String :=
  "<PESSOA:Jaques Wagner> cumprimentou <PESSOA:Soraya> durante sessao"

/-- Document B of the C1 corpus: one speech segment whose speaker tag is
`JAQUES WAGNER` and whose single mention tag is `SORAYA THRONICKE`. -/
def docB_C1 : String :=
  "<PESSOA:JAQUES WAGNER> citou <PESSOA:SORAYA THRONICKE> novamente"

/-- C1 (counterexample): on the two-document corpus of the claim the
built graph does not have exactly two nodes (it has three). -/
theorem C1_counterexample :
    (Pipeline.create_graph [docA_C1, docB_C1]).nodes.length ≠ 2 := by
  decide

/-- C1 (amended): on the two-document corpus of the claim the built graph
has exactly three nodes — `Jaques Wagner`, `Soraya` and
`SORAYA THRONICKE` — and two edges of weight 1 each, one from
`Jaques Wagner` to `Soraya` and one from `Jaques Wagner` to
`SORAYA THRONICKE`.  The resolver does merge the two Soraya variants
(the document-B mention resolves to the canonical `SORAYA THRONICKE`),
but the graph node created for document A under the earlier canonical
`Soraya` is never renamed, so the two mentions end up on two distinct
edges instead of one edge of weight 2. -/
theorem C1_amended :
    Pipeline.create_graph [docA_C1, docB_C1] =
      ⟨["Jaques Wagner", "Soraya", "SORAYA THRONICKE"],
       [("Jaques Wagner", "Soraya", 1), ("Jaques Wagner", "SORAYA THRONICKE", 1)]⟩ := by
  decide

namespace NameNormalizer

/-- The fold underlying `maxByLen` returns an element of the candidate
list. -/
theorem maxFold_mem (t : List String) (b : String) :
    t.foldl (fun best x => if best.length < x.length then x else best) b ∈ b :: t := by
  induction t generalizing b with
  | nil => simp
  | cons x xs ih =>
    simp only [List.foldl_cons]
    by_cases hbx : b.length < x.length
    · rw [if_pos hbx]
      rcases List.mem_cons.mp (ih x) with h1 | h1
      · rw [h1]
        simp
      · simp [h1]
    · rw [if_neg hbx]
      rcases List.mem_cons.mp (ih b) with h1 | h1
      · rw [h1]
        simp
      · simp [h1]

/-- The fold underlying `maxByLen` dominates the lengths of all
candidates. -/
theorem maxFold_ge (t : List String) : ∀ (b x : String), x ∈ b :: t →
    x.length ≤ (t.foldl (fun best y => if best.length < y.length then y else best) b).length := by
  induction t with
  | nil =>
    intro b x hx
    simp at hx
    simp [hx]
  | cons y ys ih =>
    intro b x hx
    simp only [List.foldl_cons]
    have hb : b.length ≤ (if b.length < y.length then y else b).length := by
      by_cases hby : b.length < y.length
      · rw [if_pos hby]
        exact Nat.le_of_lt hby
      · rw [if_neg hby]
    have hy : y.length ≤ (if b.length < y.length then y else b).length := by
      by_cases hby : b.length < y.length
      · rw [if_pos hby]
      · rw [if_neg hby]
        exact Nat.le_of_not_lt hby
    have hmem : (if b.length < y.length then y else b) ∈
        (if b.length < y.length then y else b) :: ys := List.mem_cons_self _ _
    rcases List.mem_cons.mp hx with h1 | h1
    · subst h1
      exact Nat.le_trans hb (ih _ _ hmem)
    · rcases List.mem_cons.mp h1 with h2 | h2
      · subst h2
        exact Nat.le_trans hy (ih _ _ hmem)
      · exact ih _ _ (List.mem_cons.mpr (Or.inr h2))

/-- `maxByLen` of a non-empty list is an element of it. -/
theorem maxByLen_mem (l : List String) (h : l ≠ []) : maxByLen l ∈ l := by
  cases l with
  | nil => exact absurd rfl h
  | cons b t => exact maxFold_mem t b

/-- `maxByLen` is at least as long as every element. -/
theorem maxByLen_ge (l : List String) (x : String) (hx : x ∈ l) :
    x.length ≤ (maxByLen l).length := by
  cases l with
  | nil => cases hx
  | cons b t => exact maxFold_ge t b x hx

/-- The inserted element belongs to `setInsert`. -/
theorem mem_setInsert_self (s : List String) (x : String) : x ∈ setInsert s x := by
  unfold setInsert
  by_cases h : x ∈ s
  · simp [h]
  · simp [h]

/-- `setInsert` never produces the empty list. -/
theorem setInsert_ne_nil (s : List String) (x : String) : setInsert s x ≠ [] := by
  intro h
  have := mem_setInsert_self s x
  rw [h] at this
  cases this

/-- Appending a fresh binding makes it visible to `lookupKey`. -/
theorem lookupKey_append_self (m : List (String × Nat)) (k : String) (v : Nat)
    (h : lookupKey m k = none) : lookupKey (m ++ [(k, v)]) k = some v := by
  induction m with
  | nil => simp [lookupKey]
  | cons p t ih =>
    rw [List.cons_append]
    unfold lookupKey at h ⊢
    by_cases hp : p.1 = k
    · rw [if_pos hp] at h
      cases h
    · rw [if_neg hp] at h ⊢
      exact ih h

/-- `getD` after `set` at the same in-range index. -/
theorem getD_set_self (l : List Entry) (i : Nat) (e d : Entry) (h : i < l.length) :
    (l.set i e).getD i d = e := by
  induction l generalizing i with
  | nil => cases h
  | cons a t ih =>
    cases i with
    | zero => rfl
    | succ n =>
      simp only [List.set, List.getD_cons_succ]
      exact ih n (Nat.lt_of_succ_lt_succ (by simpa using h))

/-- `set` beyond the length is the identity. -/
theorem set_of_ge (l : List Entry) (i : Nat) (e : Entry) (h : l.length ≤ i) :
    l.set i e = l := by
  induction l generalizing i with
  | nil => rfl
  | cons a t ih =>
    cases i with
    | zero => cases h
    | succ n =>
      simp only [List.set]
      rw [ih n (by simpa using Nat.le_of_succ_le_succ h)]

/-- `getD` beyond the length yields the default. -/
theorem getD_of_ge (l : List Entry) (i : Nat) (d : Entry) (h : l.length ≤ i) :
    l.getD i d = d := by
  simp [List.getD, List.getElem?_eq_none h]

/-- `insertDesc` preserves length. -/
theorem insertDesc_length (x : String × Nat) (l : List (String × Nat)) :
    (insertDesc x l).length = l.length + 1 := by
  induction l with
  | nil => rfl
  | cons y ys ih =>
    unfold insertDesc
    by_cases h : y.2 ≤ x.2
    · simp [h]
    · simp [h, ih]

/-- `sortDesc` preserves length. -/
theorem sortDesc_length (l : List (String × Nat)) : (sortDesc l).length = l.length := by
  induction l with
  | nil => rfl
  | cons x xs ih => simp [sortDesc, insertDesc_length, ih]

/-- A non-empty string has positive length. -/
theorem length_pos_of_ne (s : String) (h : s ≠ "") : 0 < s.length := by
  cases s with
  | mk data =>
    cases data with
    | nil => exact absurd rfl h
    | cons c cs => simp [String.length]

end NameNormalizer

namespace NameNormalizer

/-- Normalization of the empty string fails. -/
theorem normalize_empty : normalize "" = none := rfl

/-- A name whose normalization succeeds is non-empty. -/
theorem ne_empty_of_normalize (name key : String) (h : normalize name = some key) :
    name ≠ "" := by
  intro hn
  rw [hn, normalize_empty] at h
  cases h

/-- Branch equation: normalization failure returns the raw name and does
not touch the state. -/
theorem gcn_normfail (st : NState) (name : String) (h0 : name ≠ "")
    (h1 : normalize name = none) :
    get_canonical_name st name = (some name, st) := by
  unfold get_canonical_name
  rw [if_neg h0, h1]

/-- Branch equation: a conflicted key returns the raw name and does not
touch the state. -/
theorem gcn_conflict (st : NState) (name key : String)
    (h1 : normalize name = some key) (h2 : key ∈ st.conflicts) :
    get_canonical_name st name = (some name, st) := by
  unfold get_canonical_name
  rw [if_neg (ne_empty_of_normalize name key h1), h1]
  simp [h2]

/-- Branch equation: a direct map hit adds the raw name to the record's
variant set, upgrades the canonical name if the raw name is strictly
longer, and returns the canonical name. -/
theorem gcn_direct (st : NState) (name key : String) (rid : Nat)
    (h1 : normalize name = some key) (h2 : key ∉ st.conflicts)
    (h3 : lookupKey st.norm_to_canonical key = some rid) :
    get_canonical_name st name =
      (let e := st.records.getD rid defaultEntry
       let c := if e.canonical_name.length < name.length then name else e.canonical_name
       (some c,
        { st with records := st.records.set rid ⟨c, setInsert e.original_names name⟩ })) := by
  unfold get_canonical_name
  rw [if_neg (ne_empty_of_normalize name key h1), h1]
  simp [h2, h3]

/-- Branch equation: no fuzzy candidates creates a fresh record. -/
theorem gcn_new (st : NState) (name key : String)
    (h1 : normalize name = some key) (h2 : key ∉ st.conflicts)
    (h3 : lookupKey st.norm_to_canonical key = none)
    (h4 : potentialMatches st key = []) :
    get_canonical_name st name =
      (some name,
       { st with norm_to_canonical :=
                   st.norm_to_canonical ++ [(key, st.records.length)],
                 records := st.records ++ [⟨name, [name]⟩] }) := by
  unfold get_canonical_name
  rw [if_neg (ne_empty_of_normalize name key h1), h1]
  simp [h2, h3, h4]

/-- Branch equation: exactly one fuzzy candidate merges with it. -/
theorem gcn_one (st : NState) (name key : String) (m : String × Nat)
    (h1 : normalize name = some key) (h2 : key ∉ st.conflicts)
    (h3 : lookupKey st.norm_to_canonical key = none)
    (h4 : potentialMatches st key = [m]) :
    get_canonical_name st name = mergeWith st key name m.1 := by
  unfold get_canonical_name
  rw [if_neg (ne_empty_of_normalize name key h1), h1]
  simp [h2, h3, h4]

/-- Branch equation: with two or more fuzzy candidates, the sorted list
decides between a confident top match and a conflict. -/
theorem gcn_many (st : NState) (name key : String) (m0 m1 : String × Nat)
    (rest : List (String × Nat)) (s0 s1 : String × Nat) (srest : List (String × Nat))
    (h1 : normalize name = some key) (h2 : key ∉ st.conflicts)
    (h3 : lookupKey st.norm_to_canonical key = none)
    (h4 : potentialMatches st key = m0 :: m1 :: rest)
    (h5 : sortDesc (m0 :: m1 :: rest) = s0 :: s1 :: srest) :
    get_canonical_name st name =
      (if s1.2 + 10 ≤ s0.2 then mergeWith st key name s0.1
       else (some name, { st with conflicts := st.conflicts ++ [key] })) := by
  unfold get_canonical_name
  rw [if_neg (ne_empty_of_normalize name key h1), h1]
  simp only [h2, h3, h4, h5]
  simp

end NameNormalizer

namespace NameNormalizer

/-- Resolving the empty raw name is a stateless no-op returning `none`. -/
theorem gcn_empty (st : NState) : get_canonical_name st "" = (none, st) := by
  simp [get_canonical_name]

/-- `getD` at the old length of an appended list. -/
theorem getD_append_length (l : List Entry) (e d : Entry) :
    (l ++ [e]).getD l.length d = e := by
  induction l with
  | nil => rfl
  | cons a t ih => simpa [List.getD_cons_succ] using ih

/-- `sortDesc` of a two-or-more element list has two-or-more elements. -/
theorem sortDesc_two (m0 m1 : String × Nat) (rest : List (String × Nat)) :
    ∃ s0 s1 srest, sortDesc (m0 :: m1 :: rest) = s0 :: s1 :: srest := by
  have h := sortDesc_length (m0 :: m1 :: rest)
  cases hq : sortDesc (m0 :: m1 :: rest) with
  | nil =>
    rw [hq] at h
    simp at h
  | cons s0 t =>
    cases t with
    | nil =>
      rw [hq] at h
      simp at h
    | cons s1 srest => exact ⟨s0, s1, srest, rfl⟩

/-- Equation for `mergeWith` when the matched key is absent (unreachable
from real candidate lists; the designed total fallback is a no-op). -/
theorem mergeWith_none (st : NState) (key name mk : String)
    (hm : lookupKey st.norm_to_canonical mk = none) :
    mergeWith st key name mk = (some name, st) := by
  unfold mergeWith
  rw [hm]

/-- Equation for `mergeWith` when the matched key resolves to a record. -/
theorem mergeWith_some (st : NState) (key name mk : String) (rid : Nat)
    (hm : lookupKey st.norm_to_canonical mk = some rid) :
    mergeWith st key name mk =
      (let names := setInsert (st.records.getD rid defaultEntry).original_names name
       (some (maxByLen names),
        { st with records := st.records.set rid ⟨maxByLen names, names⟩,
                  norm_to_canonical := st.norm_to_canonical ++ [(key, rid)] })) := by
  unfold mergeWith
  rw [hm]

/-- A key occurring in the map has a successful lookup. -/
theorem lookup_isSome_of_memKey (m : List (String × Nat)) (k : String)
    (h : ∃ q ∈ m, q.1 = k) : ∃ rid, lookupKey m k = some rid := by
  induction m with
  | nil =>
    obtain ⟨q, hq, _⟩ := h
    cases hq
  | cons p t ih =>
    unfold lookupKey
    by_cases hp : p.1 = k
    · exact ⟨p.2, by rw [if_pos hp]⟩
    · rw [if_neg hp]
      obtain ⟨q, hq, hqk⟩ := h
      rcases List.mem_cons.mp hq with h1 | h1
      · exact absurd (h1 ▸ hqk) hp
      · exact ih ⟨q, h1, hqk⟩

/-- Every candidate of `potentialMatches` is an existing map key. -/
theorem potentialMatches_lookup (st : NState) (key : String) (p : String × Nat)
    (hp : p ∈ potentialMatches st key) :
    ∃ rid, lookupKey st.norm_to_canonical p.1 = some rid := by
  apply lookup_isSome_of_memKey
  unfold potentialMatches at hp
  obtain ⟨hp1, _⟩ := List.mem_filter.mp hp
  obtain ⟨q, hq, hqp⟩ := List.mem_map.mp hp1
  obtain ⟨hq1, _⟩ := List.mem_filter.mp hq
  exact ⟨q, hq1, by rw [← hqp]⟩

/-- `sortDesc` permutes its input, so its members come from the input. -/
theorem mem_of_mem_insertDesc (x y : String × Nat) (l : List (String × Nat))
    (h : y ∈ insertDesc x l) : y = x ∨ y ∈ l := by
  induction l with
  | nil =>
    simp [insertDesc] at h
    exact Or.inl h
  | cons z zs ih =>
    unfold insertDesc at h
    by_cases hz : z.2 ≤ x.2
    · rw [if_pos hz] at h
      rcases List.mem_cons.mp h with h1 | h1
      · exact Or.inl h1
      · exact Or.inr h1
    · rw [if_neg hz] at h
      rcases List.mem_cons.mp h with h1 | h1
      · exact Or.inr (h1 ▸ List.mem_cons_self _ _)
      · rcases ih h1 with h2 | h2
        · exact Or.inl h2
        · exact Or.inr (List.mem_cons.mpr (Or.inr h2))

/-- Members of `sortDesc l` are members of `l`. -/
theorem mem_of_mem_sortDesc (l : List (String × Nat)) (y : String × Nat)
    (h : y ∈ sortDesc l) : y ∈ l := by
  induction l generalizing y with
  | nil => cases h
  | cons x xs ih =>
    unfold sortDesc at h
    rcases mem_of_mem_insertDesc x y (sortDesc xs) h with h1 | h1
    · exact h1 ▸ List.mem_cons_self _ _
    · exact List.mem_cons.mpr (Or.inr (ih y h1))

/-- Resolving the same name again directly after a merge with an existing
record returns the same canonical string. -/
theorem mergeWith_idem (st : NState) (key name mk : String) (rid : Nat)
    (h0 : name ≠ "") (h1 : normalize name = some key) (h2 : key ∉ st.conflicts)
    (h3 : lookupKey st.norm_to_canonical key = none)
    (hm : lookupKey st.norm_to_canonical mk = some rid) :
    (get_canonical_name (mergeWith st key name mk).2 name).1 =
      (mergeWith st key name mk).1 := by
  rw [mergeWith_some st key name mk rid hm]
  simp only []
  set names := setInsert (st.records.getD rid defaultEntry).original_names name with hnames
  set st2 : NState :=
    { st with records := st.records.set rid ⟨maxByLen names, names⟩,
              norm_to_canonical := st.norm_to_canonical ++ [(key, rid)] } with hst2
  have h3b : lookupKey st2.norm_to_canonical key = some rid := by
    rw [hst2]
    exact lookupKey_append_self _ _ _ h3
  have h2b : key ∉ st2.conflicts := h2
  rw [gcn_direct st2 name key rid h1 h2b h3b]
  simp only []
  by_cases hr : rid < st.records.length
  · have he2 : st2.records.getD rid defaultEntry = ⟨maxByLen names, names⟩ := by
      rw [hst2]
      exact getD_set_self _ _ _ _ hr
    rw [he2]
    have hlen : name.length ≤ (maxByLen names).length :=
      maxByLen_ge names name (mem_setInsert_self _ _)
    simp [Nat.not_lt.mpr hlen]
  · have hge := Nat.le_of_not_lt hr
    have hstrec : st2.records = st.records := by
      rw [hst2]
      exact set_of_ge _ _ _ hge
    have hd : st.records.getD rid defaultEntry = defaultEntry := getD_of_ge _ _ _ hge
    have he2 : st2.records.getD rid defaultEntry = defaultEntry := by
      rw [hstrec]
      exact hd
    have hnames2 : names = [name] := by
      rw [hnames, hd]
      rfl
    have hpos : (0 : Nat) < name.length := length_pos_of_ne name h0
    rw [he2, hnames2]
    have hmax : maxByLen [name] = name := rfl
    rw [hmax]
    have hz : defaultEntry.canonical_name.length = 0 := rfl
    rw [hz, if_pos hpos]

end NameNormalizer

/-- C6: for every resolver state and every raw name, calling
`get_canonical_name` twice in immediate succession returns the same
canonical value both times (idempotence of repeated resolution). -/
theorem C6_resolve_idempotent (st : NameNormalizer.NState) (name : String) :
    (NameNormalizer.get_canonical_name
        (NameNormalizer.get_canonical_name st name).2 name).1 =
      (NameNormalizer.get_canonical_name st name).1 := by
  open NameNormalizer in
  by_cases h0 : name = ""
  · subst h0
    rw [gcn_empty st]
    rw [gcn_empty st]
  · cases hn : normalize name with
    | none =>
      rw [gcn_normfail st name h0 hn]
      simp only []
      rw [gcn_normfail st name h0 hn]
    | some key =>
      by_cases h2 : key ∈ st.conflicts
      · rw [gcn_conflict st name key hn h2]
        simp only []
        rw [gcn_conflict st name key hn h2]
      · cases h3 : lookupKey st.norm_to_canonical key with
        | some rid =>
          rw [gcn_direct st name key rid hn h2 h3]
          simp only []
          set e := st.records.getD rid defaultEntry with he
          set c := if e.canonical_name.length < name.length then name
                   else e.canonical_name with hc
          set st2 : NState :=
            { st with records := st.records.set rid ⟨c, setInsert e.original_names name⟩ }
            with hst2
          have h3b : lookupKey st2.norm_to_canonical key = some rid := h3
          rw [gcn_direct st2 name key rid hn h2 h3b]
          simp only []
          by_cases hr : rid < st.records.length
          · have he2 : st2.records.getD rid defaultEntry =
                ⟨c, setInsert e.original_names name⟩ := by
              rw [hst2]
              exact getD_set_self _ _ _ _ hr
            rw [he2]
            have hnc : ¬ c.length < name.length := by
              rw [hc]
              by_cases hcc : e.canonical_name.length < name.length
              · rw [if_pos hcc]
                exact Nat.lt_irrefl _
              · rw [if_neg hcc]
                exact hcc
            rw [if_neg hnc]
          · have hge := Nat.le_of_not_lt hr
            have hstrec : st2.records = st.records := by
              rw [hst2]
              exact set_of_ge _ _ _ hge
            have he2 : st2.records.getD rid defaultEntry = e := by
              rw [hstrec, he]
            rw [he2, hc]
        | none =>
          cases h4 : potentialMatches st key with
          | nil =>
            rw [gcn_new st name key hn h2 h3 h4]
            simp only []
            set st2 : NState :=
              { st with norm_to_canonical :=
                          st.norm_to_canonical ++ [(key, st.records.length)],
                        records := st.records ++ [⟨name, [name]⟩] } with hst2
            have h3b : lookupKey st2.norm_to_canonical key = some st.records.length := by
              rw [hst2]
              exact lookupKey_append_self _ _ _ h3
            rw [gcn_direct st2 name key st.records.length hn h2 h3b]
            simp only []
            have he2 : st2.records.getD st.records.length defaultEntry = ⟨name, [name]⟩ := by
              rw [hst2]
              exact getD_append_length _ _ _
            rw [he2]
            simp
          | cons p0 ptail =>
            cases ptail with
            | nil =>
              obtain ⟨rid0, hm0⟩ := potentialMatches_lookup st key p0
                (by rw [h4]; exact List.mem_cons_self _ _)
              rw [gcn_one st name key p0 hn h2 h3 h4]
              exact mergeWith_idem st key name p0.1 rid0 h0 hn h2 h3 hm0
            | cons p1 prest =>
              obtain ⟨s0, s1, srest, h5⟩ := sortDesc_two p0 p1 prest
              rw [gcn_many st name key p0 p1 prest s0 s1 srest hn h2 h3 h4 h5]
              by_cases hmg : s1.2 + 10 ≤ s0.2
              · rw [if_pos hmg]
                have hs0mem : s0 ∈ potentialMatches st key := by
                  rw [h4]
                  exact mem_of_mem_sortDesc _ _ (by rw [h5]; exact List.mem_cons_self _ _)
                obtain ⟨rid0, hm0⟩ := potentialMatches_lookup st key s0 hs0mem
                exact mergeWith_idem st key name s0.1 rid0 h0 hn h2 h3 hm0
              · rw [if_neg hmg]
                simp only []
                rw [gcn_conflict _ name key hn (by simp)]

namespace NameNormalizer

/-- One resolution step never removes a key from the conflict set. -/
theorem conflicts_mono_step (st : NState) (name : String) :
    st.conflicts ⊆ ((get_canonical_name st name).2).conflicts := by
  by_cases h0 : name = ""
  · rw [h0, gcn_empty]
    exact fun x hx => hx
  · cases hn : normalize name with
    | none =>
      rw [gcn_normfail st name h0 hn]
      exact fun x hx => hx
    | some key =>
      by_cases h2 : key ∈ st.conflicts
      · rw [gcn_conflict st name key hn h2]
        exact fun x hx => hx
      · cases h3 : lookupKey st.norm_to_canonical key with
        | some rid =>
          rw [gcn_direct st name key rid hn h2 h3]
          exact fun x hx => hx
        | none =>
          cases h4 : potentialMatches st key with
          | nil =>
            rw [gcn_new st name key hn h2 h3 h4]
            exact fun x hx => hx
          | cons p0 ptail =>
            cases ptail with
            | nil =>
              rw [gcn_one st name key p0 hn h2 h3 h4]
              cases hm : lookupKey st.norm_to_canonical p0.1 with
              | none =>
                rw [mergeWith_none st key name p0.1 hm]
                exact fun x hx => hx
              | some rid =>
                rw [mergeWith_some st key name p0.1 rid hm]
                exact fun x hx => hx
            | cons p1 prest =>
              obtain ⟨s0, s1, srest, h5⟩ := sortDesc_two p0 p1 prest
              rw [gcn_many st name key p0 p1 prest s0 s1 srest hn h2 h3 h4 h5]
              by_cases hmg : s1.2 + 10 ≤ s0.2
              · rw [if_pos hmg]
                cases hm : lookupKey st.norm_to_canonical s0.1 with
                | none =>
                  rw [mergeWith_none st key name s0.1 hm]
                  exact fun x hx => hx
                | some rid =>
                  rw [mergeWith_some st key name s0.1 rid hm]
                  exact fun x hx => hx
              · rw [if_neg hmg]
                exact fun x hx => List.mem_append_left _ hx

/-- A whole session of resolutions never removes a conflict key. -/
theorem conflicts_mono_all (names : List String) :
    ∀ st : NState, st.conflicts ⊆ (resolveAll st names).conflicts := by
  induction names with
  | nil => exact fun st x hx => hx
  | cons n ns ih => exact fun st x hx => ih _ (conflicts_mono_step st n hx)

end NameNormalizer

/-- C3: once a normalized key is in the conflict set, it stays there
through every further sequence of resolve calls (the conflict set only
grows), and resolving any raw name that normalizes to that key returns
that raw name unchanged with the state untouched. -/
theorem C3_conflict_stability (st : NameNormalizer.NState) (names : List String)
    (name key : String) (hk : key ∈ st.conflicts) :
    key ∈ (NameNormalizer.resolveAll st names).conflicts ∧
    (NameNormalizer.normalize name = some key →
      NameNormalizer.get_canonical_name (NameNormalizer.resolveAll st names) name =
        (some name, NameNormalizer.resolveAll st names)) := by
  have hmem := NameNormalizer.conflicts_mono_all names st hk
  exact ⟨hmem, fun hn => NameNormalizer.gcn_conflict _ name key hn hmem⟩

/-- The concrete conflicted state used to witness C3. -/
def stW_C3 : NameNormalizer.NState := ⟨[], [], ["joao silva"]⟩

/-- Witness for C3 at a concrete conflicted state, name list and raw
name. -/
theorem C3_conflict_stability_witness :
    "joao silva" ∈ stW_C3.conflicts ∧
    ("joao silva" ∈ (NameNormalizer.resolveAll stW_C3 ["Maria Souza"]).conflicts ∧
     (NameNormalizer.normalize "Joao Silva" = some "joao silva" →
       NameNormalizer.get_canonical_name
           (NameNormalizer.resolveAll stW_C3 ["Maria Souza"]) "Joao Silva" =
         (some "Joao Silva", NameNormalizer.resolveAll stW_C3 ["Maria Souza"]))) :=
  ⟨by decide, C3_conflict_stability stW_C3 ["Maria Souza"] "Joao Silva" "joao silva" (by decide)⟩

namespace NameNormalizer

/-- Record well-formedness: the canonical name is one of the variants and
no variant is strictly longer. -/
def RecordWF (e : Entry) : Prop :=
  e.canonical_name ∈ e.original_names ∧
  ∀ v ∈ e.original_names, v.length ≤ e.canonical_name.length

/-- All stored records are well-formed. -/
def StateWF (st : NState) : Prop := ∀ e ∈ st.records, RecordWF e

/-- Membership in `setInsert`. -/
theorem mem_setInsert (s : List String) (x v : String) (h : v ∈ setInsert s x) :
    v ∈ s ∨ v = x := by
  unfold setInsert at h
  by_cases hx : x ∈ s
  · rw [if_pos hx] at h
    exact Or.inl h
  · rw [if_neg hx] at h
    rcases List.mem_append.mp h with h1 | h1
    · exact Or.inl h1
    · exact Or.inr (List.mem_singleton.mp h1)

/-- `setInsert` extends the set. -/
theorem subset_setInsert (s : List String) (x : String) : s ⊆ setInsert s x := by
  unfold setInsert
  by_cases hx : x ∈ s
  · rw [if_pos hx]
    exact fun v hv => hv
  · rw [if_neg hx]
    exact List.subset_append_left _ _

/-- The merged record of `mergeWith` is well-formed. -/
theorem mergeRecordWF (base : List String) (name : String) (h0 : name ≠ "") :
    RecordWF ⟨maxByLen (setInsert base name), setInsert base name⟩ := by
  constructor
  · exact maxByLen_mem _ (setInsert_ne_nil base name)
  · intro v hv
    exact maxByLen_ge _ v hv

/-- The updated record of the direct-hit branch is well-formed provided
the old record was. -/
theorem directRecordWF (e : Entry) (name : String) (he : RecordWF e) :
    RecordWF ⟨if e.canonical_name.length < name.length then name else e.canonical_name,
              setInsert e.original_names name⟩ := by
  by_cases hlt : e.canonical_name.length < name.length
  · rw [RecordWF]
    simp only [if_pos hlt]
    constructor
    · exact mem_setInsert_self _ _
    · intro v hv
      rcases mem_setInsert _ _ _ hv with h1 | h1
      · exact Nat.le_trans (he.2 v h1) (Nat.le_of_lt hlt)
      · rw [h1]
  · rw [RecordWF]
    simp only [if_neg hlt]
    constructor
    · exact subset_setInsert _ _ he.1
    · intro v hv
      rcases mem_setInsert _ _ _ hv with h1 | h1
      · exact he.2 v h1
      · rw [h1]
        exact Nat.le_of_not_lt hlt

/-- Updating one record with a well-formed record preserves state
well-formedness. -/
theorem wf_set (st : NState) (rid : Nat) (enew : Entry)
    (h : StateWF st) (hnew : RecordWF enew) :
    ∀ e ∈ st.records.set rid enew, RecordWF e := by
  intro e he
  rcases List.mem_or_eq_of_mem_set he with h1 | h1
  · exact h e h1
  · rw [h1]
    exact hnew

/-- The in-range record extracted in the direct-hit and merge branches is
well-formed; the out-of-range default leads to the singleton record. -/
theorem wf_getD (st : NState) (rid : Nat) (h : StateWF st) (hr : rid < st.records.length) :
    RecordWF (st.records.getD rid defaultEntry) := by
  apply h
  have : st.records.getD rid defaultEntry = st.records.get ⟨rid, hr⟩ := by
    simp [List.getD, List.getElem?_eq_getElem hr, List.get_eq_getElem]
  rw [this]
  exact List.get_mem _ rid hr

/-- One resolution step preserves record well-formedness. -/
theorem wf_step (st : NState) (name : String) (h : StateWF st) :
    StateWF ((get_canonical_name st name).2) := by
  by_cases h0 : name = ""
  · rw [h0, gcn_empty]
    exact h
  · cases hn : normalize name with
    | none =>
      rw [gcn_normfail st name h0 hn]
      exact h
    | some key =>
      by_cases h2 : key ∈ st.conflicts
      · rw [gcn_conflict st name key hn h2]
        exact h
      · cases h3 : lookupKey st.norm_to_canonical key with
        | some rid =>
          rw [gcn_direct st name key rid hn h2 h3]
          intro e he
          simp only [] at he
          by_cases hr : rid < st.records.length
          · exact wf_set st rid _ h (directRecordWF _ name (wf_getD st rid h hr)) e he
          · have hd : st.records.getD rid defaultEntry = defaultEntry :=
              getD_of_ge _ _ _ (Nat.le_of_not_lt hr)
            rw [hd] at he
            rw [set_of_ge _ _ _ (Nat.le_of_not_lt hr)] at he
            exact h e he
        | none =>
          have mergeCase : ∀ mk : String,
              StateWF ((mergeWith st key name mk).2) := by
            intro mk
            cases hm : lookupKey st.norm_to_canonical mk with
            | none =>
              rw [mergeWith_none st key name mk hm]
              exact h
            | some rid =>
              rw [mergeWith_some st key name mk rid hm]
              intro e he
              simp only [] at he
              exact wf_set st rid _ h (mergeRecordWF _ name h0) e he
          cases h4 : potentialMatches st key with
          | nil =>
            rw [gcn_new st name key hn h2 h3 h4]
            intro e he
            simp only [] at he
            rcases List.mem_append.mp he with h1 | h1
            · exact h e h1
            · rw [List.mem_singleton.mp h1]
              exact ⟨List.mem_singleton.mpr rfl, by intro v hv; rw [List.mem_singleton.mp hv]⟩
          | cons p0 ptail =>
            cases ptail with
            | nil =>
              rw [gcn_one st name key p0 hn h2 h3 h4]
              exact mergeCase p0.1
            | cons p1 prest =>
              obtain ⟨s0, s1, srest, h5⟩ := sortDesc_two p0 p1 prest
              rw [gcn_many st name key p0 p1 prest s0 s1 srest hn h2 h3 h4 h5]
              by_cases hmg : s1.2 + 10 ≤ s0.2
              · rw [if_pos hmg]
                exact mergeCase s0.1
              · rw [if_neg hmg]
                exact h

/-- A whole session from the fresh resolver keeps every record
well-formed. -/
theorem wf_resolveAll (names : List String) :
    StateWF (resolveAll initState names) := by
  have init : StateWF initState := by
    intro e he
    cases he
  have step : ∀ (ns : List String) (st : NState), StateWF st →
      StateWF (resolveAll st ns) := by
    intro ns
    induction ns with
    | nil => exact fun st hst => hst
    | cons n t ih => exact fun st hst => ih _ (wf_step st n hst)
  exact step names initState init

end NameNormalizer

/-- C9: after any sequence of resolve calls on a fresh resolver, every
stored record's canonical name is one of its variant names, and no
variant is strictly longer than the canonical name. -/
theorem C9_canonical_is_longest_variant (names : List String) (e : NameNormalizer.Entry)
    (he : e ∈ (NameNormalizer.resolveAll NameNormalizer.initState names).records) :
    e.canonical_name ∈ e.original_names ∧
    ∀ v ∈ e.original_names, v.length ≤ e.canonical_name.length :=
  NameNormalizer.wf_resolveAll names e he

/-- Witness for C9: after resolving `Ana` and then `Ana Maria`, the
single stored record has canonical name `Ana Maria`, which is its longest
variant. -/
theorem C9_canonical_is_longest_variant_witness :
    ((⟨"Ana Maria", ["Ana", "Ana Maria"]⟩ : NameNormalizer.Entry) ∈
      (NameNormalizer.resolveAll NameNormalizer.initState ["Ana", "Ana Maria"]).records) ∧
    (("Ana Maria" : String) ∈ ["Ana", "Ana Maria"] ∧
     ∀ v ∈ (["Ana", "Ana Maria"] : List String), v.length ≤ ("Ana Maria" : String).length) :=
  ⟨by decide,
   C9_canonical_is_longest_variant ["Ana", "Ana Maria"] ⟨"Ana Maria", ["Ana", "Ana Maria"]⟩
     (by decide)⟩

/-- C2: when the normalized key is not a direct map key and two or more
non-conflicted existing keys score at least 85 against it, the candidates
are sorted by score descending; if the top score exceeds the second by at
least 10, the raw name is merged into the top candidate's record (variant
added, canonical recomputed as the longest variant, key aliased to that
record) and the new canonical is returned; otherwise the key joins the
conflict set and the raw name is returned unchanged. -/
theorem C2_multi_candidate_rule (st : NameNormalizer.NState) (name key : String)
    (m0 m1 : String × Nat) (rest : List (String × Nat))
    (s0 s1 : String × Nat) (srest : List (String × Nat)) (rid : Nat)
    (h1 : NameNormalizer.normalize name = some key)
    (h2 : key ∉ st.conflicts)
    (h3 : NameNormalizer.lookupKey st.norm_to_canonical key = none)
    (h4 : NameNormalizer.potentialMatches st key = m0 :: m1 :: rest)
    (h5 : NameNormalizer.sortDesc (m0 :: m1 :: rest) = s0 :: s1 :: srest)
    (h6 : NameNormalizer.lookupKey st.norm_to_canonical s0.1 = some rid) :
    NameNormalizer.get_canonical_name st name =
      if s1.2 + 10 ≤ s0.2 then
        (let names := NameNormalizer.setInsert
           (st.records.getD rid NameNormalizer.defaultEntry).original_names name
         (some (NameNormalizer.maxByLen names),
          { st with records := st.records.set rid
                      ⟨NameNormalizer.maxByLen names, names⟩,
                    norm_to_canonical := st.norm_to_canonical ++ [(key, rid)] }))
      else (some name, { st with conflicts := st.conflicts ++ [key] }) := by
  rw [NameNormalizer.gcn_many st name key m0 m1 rest s0 s1 srest h1 h2 h3 h4 h5]
  by_cases hmg : s1.2 + 10 ≤ s0.2
  · rw [if_pos hmg, if_pos hmg]
    rw [NameNormalizer.mergeWith_some st key name s0.1 rid h6]
  · rw [if_neg hmg, if_neg hmg]

/-- The concrete resolver state used to witness C2: two existing
identities whose keys both score at least 85 against the incoming key
`anna maria silva` (scores 100 and 97), an ambiguity with margin 3. -/
def stW_C2 : NameNormalizer.NState :=
  ⟨[("anna maria", 0), ("anna maria silvax", 1)],
   [⟨"Anna Maria", ["Anna Maria"]⟩, ⟨"Anna Maria Silvax", ["Anna Maria Silvax"]⟩],
   []⟩

/-- Witness for C2: resolving `Anna Maria Silva` against `stW_C2` finds
the two candidates with scores 100 and 97; the margin is below 10, so the
key is added to the conflict set and the raw name is returned. -/
theorem C2_multi_candidate_rule_witness :
    (NameNormalizer.normalize "Anna Maria Silva" = some "anna maria silva") ∧
    ("anna maria silva" ∉ stW_C2.conflicts) ∧
    (NameNormalizer.lookupKey stW_C2.norm_to_canonical "anna maria silva" = none) ∧
    (NameNormalizer.potentialMatches stW_C2 "anna maria silva" =
      [("anna maria", 100), ("anna maria silvax", 97)]) ∧
    (NameNormalizer.sortDesc [("anna maria", 100), ("anna maria silvax", 97)] =
      [("anna maria", 100), ("anna maria silvax", 97)]) ∧
    (NameNormalizer.lookupKey stW_C2.norm_to_canonical "anna maria" = some 0) ∧
    NameNormalizer.get_canonical_name stW_C2 "Anna Maria Silva" =
      (some "Anna Maria Silva",
       ⟨[("anna maria", 0), ("anna maria silvax", 1)],
        [⟨"Anna Maria", ["Anna Maria"]⟩, ⟨"Anna Maria Silvax", ["Anna Maria Silvax"]⟩],
        ["anna maria silva"]⟩) :=
  ⟨by decide, by decide, by decide, by decide, by decide, by decide,
   (C2_multi_candidate_rule stW_C2 "Anna Maria Silva" "anna maria silva"
      ("anna maria", 100) ("anna maria silvax", 97) [] ("anna maria", 100)
      ("anna maria silvax", 97) [] 0 (by decide) (by decide) (by decide) (by decide)
      (by decide) (by decide)).trans (by decide)⟩

/-- C8: two spans with the same label where the second starts exactly one
character after the first ends merge — either in the first pass (if an
all-caps word is involved) or in the second pass — into a single span
whose text joins the two texts with one space, whose end is the second
span's end, and whose confidence is the minimum of the two. -/
theorem C8_one_gap_merge (e1 e2 : NER.Entity)
    (hg : e2.entity_group = e1.entity_group)
    (h1 : e2.start = e1.stop + 1)
    (hs1 : e1.start ≤ e1.stop) (hs2 : e2.start ≤ e2.stop) :
    NER.merge_adjacent_entities [e1, e2] =
      [⟨e1.entity_group, e1.word ++ " " ++ e2.word, e1.start, e2.stop,
        min e1.score e2.score⟩] := by
  have hle : e1.start ≤ e2.start := by omega
  have hsort : NER.sortByStart [e1, e2] = [e1, e2] := by
    simp only [NER.sortByStart, NER.insertByStart, if_pos hle]
  have ha : e2.start ≤ e1.stop + 1 := by omega
  have hb : ¬ e2.start ≤ e1.stop := by omega
  have hstop : e1.stop < e2.stop := by omega
  have hsm : NER.shouldMerge e1 e2 = (NER.pyIsUpper e2.word || NER.pyIsUpper e1.word) := by
    simp [NER.shouldMerge, hg, ha, hb]
  have hov : ¬ (0 : Int) ≤ e1.stop - e2.start := by omega
  have hme : NER.mergeEnt e1 e2 =
      ⟨e1.entity_group, e1.word ++ " " ++ e2.word, e1.start, e2.stop,
       min e1.score e2.score⟩ := by
    simp [NER.mergeEnt, hov, hstop]
  have hsj : NER.shouldJoin e1 e2 = true := by
    simp [NER.shouldJoin, hg]
    omega
  unfold NER.merge_adjacent_entities
  rw [hsort]
  by_cases hu : (NER.pyIsUpper e2.word || NER.pyIsUpper e1.word) = true
  · simp only [List.foldl_cons, List.foldl_nil, NER.pass1Step, hsm, hu, if_true, hme,
      List.reverse_cons, List.reverse_nil, List.nil_append, List.singleton_append,
      NER.pass2Step]
  · have hu2 : (NER.pyIsUpper e2.word || NER.pyIsUpper e1.word) = false :=
      Bool.not_eq_true _ ▸ Bool.of_not_eq_true hu
    simp only [List.foldl_cons, List.foldl_nil, NER.pass1Step, hsm, hu2, Bool.false_eq_true,
      if_false, List.reverse_cons, List.reverse_nil, List.nil_append, List.singleton_append,
      NER.pass2Step, hsj, if_true]

/-- Witness for C8: two concrete `PESSOA` spans with a 1-character gap
merge into one span with space-joined text, the second end, and the
minimum confidence. -/
theorem C8_one_gap_merge_witness :
    ((⟨"PESSOA", "Wagner", 7, 13, 4/5⟩ : NER.Entity).entity_group =
      (⟨"PESSOA", "Jaques", 0, 6, 9/10⟩ : NER.Entity).entity_group) ∧
    ((7 : Int) = 6 + 1) ∧ ((0 : Int) ≤ 6) ∧ ((7 : Int) ≤ 13) ∧
    NER.merge_adjacent_entities
        [⟨"PESSOA", "Jaques", 0, 6, 9/10⟩, ⟨"PESSOA", "Wagner", 7, 13, 4/5⟩] =
      [⟨"PESSOA", "Jaques" ++ " " ++ "Wagner", 0, 13, min (9/10 : ℚ) (4/5)⟩] :=
  ⟨by decide, by decide, by decide, by decide,
   C8_one_gap_merge ⟨"PESSOA", "Jaques", 0, 6, 9/10⟩ ⟨"PESSOA", "Wagner", 7, 13, 4/5⟩
     (by decide) (by decide) (by decide) (by decide)⟩

namespace Annot

/-- Concatenation of `(tag, segment)` parts. -/
def joinParts (parts : List (List Char × List Char)) : List Char :=
  (parts.map (fun pr => pr.1 ++ pr.2)).join

/-- Concatenation of the segments only (the result of deleting every
inserted tag from the annotated text). -/
def joinSnd (parts : List (List Char × List Char)) : List Char :=
  (parts.map Prod.snd).join

/-- Minimum insertion position of a position list, with a default. -/
def minPosAux (ps : List Pos) (n : Nat) : Nat :=
  ps.foldr (fun p m => min p.pos m) n

/-- `minPosAux` of a list that is bounded below by its default. -/
theorem minPosAux_const (l : List Pos) (c : Nat) (h : ∀ p ∈ l, c ≤ p.pos) :
    minPosAux l c = c := by
  induction l with
  | nil => rfl
  | cons p t ih =>
    unfold minPosAux at ih ⊢
    simp only [List.foldr_cons]
    rw [ih (fun q hq => h q (List.mem_cons.mpr (Or.inr hq)))]
    exact Nat.min_eq_right (h p (List.mem_cons_self _ _))

/-- A common lower bound of a position list and the default bounds
`minPosAux`. -/
theorem le_minPosAux (l : List Pos) (n c : Nat) (hc : c ≤ n)
    (h : ∀ p ∈ l, c ≤ p.pos) : c ≤ minPosAux l n := by
  induction l with
  | nil => exact hc
  | cons p t ih =>
    unfold minPosAux at ih ⊢
    simp only [List.foldr_cons]
    exact Nat.le_min.mpr ⟨h p (List.mem_cons_self _ _),
      ih (fun q hq => h q (List.mem_cons.mpr (Or.inr hq)))⟩

/-- `minPosAux` over an appended singleton. -/
theorem minPosAux_append (l : List Pos) (x : Pos) (n : Nat) :
    minPosAux (l ++ [x]) n = minPosAux l (min x.pos n) := by
  unfold minPosAux
  rw [List.foldr_append]
  rfl

/-- `posLt` compares positions first. -/
theorem posLt_pos_le (x y : Pos) (h : posLt x y = true) : x.pos ≤ y.pos := by
  unfold posLt at h
  rcases Bool.or_eq_true _ _ |>.mp h with h1 | h1
  · exact Nat.le_of_lt (of_decide_eq_true h1)
  · have := (Bool.and_eq_true _ _ |>.mp h1).1
    exact Nat.le_of_eq (of_decide_eq_true this)

/-- A failed `posLt` bounds the positions the other way. -/
theorem not_posLt_pos_le (x y : Pos) (h : ¬ posLt x y = true) : y.pos ≤ x.pos := by
  unfold posLt at h
  by_cases hp : x.pos < y.pos
  · exact absurd (Bool.or_eq_true _ _ |>.mpr (Or.inl (decide_eq_true hp))) h
  · exact Nat.le_of_not_lt hp

/-- Members of `insertPosDesc`. -/
theorem mem_insertPosDesc (x y : Pos) (l : List Pos) (h : y ∈ insertPosDesc x l) :
    y = x ∨ y ∈ l := by
  induction l with
  | nil =>
    simp [insertPosDesc] at h
    exact Or.inl h
  | cons z zs ih =>
    unfold insertPosDesc at h
    by_cases hz : posLt x z = true
    · rw [if_pos hz] at h
      rcases List.mem_cons.mp h with h1 | h1
      · exact Or.inr (h1 ▸ List.mem_cons_self _ _)
      · rcases ih h1 with h2 | h2
        · exact Or.inl h2
        · exact Or.inr (List.mem_cons.mpr (Or.inr h2))
    · rw [if_neg hz] at h
      rcases List.mem_cons.mp h with h1 | h1
      · exact Or.inl h1
      · exact Or.inr h1

/-- Members of `sortPosDesc`. -/
theorem mem_sortPosDesc (l : List Pos) (y : Pos) (h : y ∈ sortPosDesc l) : y ∈ l := by
  induction l generalizing y with
  | nil => cases h
  | cons x xs ih =>
    unfold sortPosDesc at h
    rcases mem_insertPosDesc x y (sortPosDesc xs) h with h1 | h1
    · exact h1 ▸ List.mem_cons_self _ _
    · exact List.mem_cons.mpr (Or.inr (ih y h1))

/-- Insertion preserves descending position order. -/
theorem pairwise_insertPosDesc (x : Pos) (l : List Pos)
    (h : l.Pairwise (fun a b => b.pos ≤ a.pos)) :
    (insertPosDesc x l).Pairwise (fun a b => b.pos ≤ a.pos) := by
  induction l with
  | nil => simp [insertPosDesc]
  | cons z zs ih =>
    unfold insertPosDesc
    rcases List.pairwise_cons.mp h with ⟨hz, hzs⟩
    by_cases hlt : posLt x z = true
    · rw [if_pos hlt]
      refine List.pairwise_cons.mpr ⟨?_, ih hzs⟩
      intro y hy
      rcases mem_insertPosDesc x y zs hy with h1 | h1
      · exact h1 ▸ posLt_pos_le x z hlt
      · exact hz y h1
    · rw [if_neg hlt]
      refine List.pairwise_cons.mpr ⟨?_, h⟩
      intro y hy
      rcases List.mem_cons.mp hy with h1 | h1
      · exact h1 ▸ not_posLt_pos_le x z hlt
      · exact Nat.le_trans (hz y h1) (not_posLt_pos_le x z hlt)

/-- `sortPosDesc` is descending in the position component. -/
theorem pairwise_sortPosDesc (l : List Pos) :
    (sortPosDesc l).Pairwise (fun a b => b.pos ≤ a.pos) := by
  induction l with
  | nil => exact List.Pairwise.nil
  | cons x xs ih => exact pairwise_insertPosDesc x (sortPosDesc xs) ih

end Annot

namespace Annot

/-- `minPosAux` is bounded by its default. -/
theorem minPosAux_le (l : List Pos) (n : Nat) : minPosAux l n ≤ n := by
  induction l with
  | nil => exact Nat.le_refl n
  | cons p t ih =>
    unfold minPosAux at ih ⊢
    simp only [List.foldr_cons]
    exact Nat.le_trans (Nat.min_le_right _ _) ih

/-- Inserting tags back to front at descending in-bounds positions splits
the result into the original prefix below the least position followed by
tag/segment parts whose segments reassemble the rest of the original. -/
theorem foldl_insertTag_decomp (orig : List Char) (ps : List Pos)
    (hb : ∀ p ∈ ps, p.pos ≤ orig.length)
    (hs : ps.Pairwise (fun a b => b.pos ≤ a.pos)) :
    ∃ parts : List (List Char × List Char),
      ps.foldl insertTag orig =
        orig.take (minPosAux ps orig.length) ++ joinParts parts ∧
      orig.drop (minPosAux ps orig.length) = joinSnd parts ∧
      ∀ pr ∈ parts, ∃ x ∈ ps, pr.1 = tagOf x := by
  induction ps using List.reverseRecOn with
  | nil =>
    refine ⟨[], ?_, ?_, ?_⟩
    · simp [minPosAux, joinParts]
    · simp [minPosAux, joinSnd]
    · intro pr hpr
      cases hpr
  | append_singleton ps' x ih =>
    have hb' : ∀ p ∈ ps', p.pos ≤ orig.length :=
      fun p hp => hb p (List.mem_append_left _ hp)
    have hbx : x.pos ≤ orig.length := hb x (List.mem_append_right _ (List.mem_singleton.mpr rfl))
    have hsplit := List.pairwise_append.mp hs
    have hs' : ps'.Pairwise (fun a b => b.pos ≤ a.pos) := hsplit.1
    have hxle : ∀ p ∈ ps', x.pos ≤ p.pos := by
      intro p hp
      exact hsplit.2.2 p hp x (List.mem_singleton.mpr rfl)
    obtain ⟨parts, heq, hsnd, htags⟩ := ih hb' hs'
    set q := minPosAux ps' orig.length with hq
    have hxq : x.pos ≤ q := le_minPosAux ps' orig.length x.pos hbx hxle
    have hqlen : q ≤ orig.length := minPosAux_le _ _
    have htklen : (orig.take q).length = q := by
      rw [List.length_take]
      exact Nat.min_eq_left hqlen
    have hminx : minPosAux (ps' ++ [x]) orig.length = x.pos := by
      rw [minPosAux_append, Nat.min_eq_left hbx]
      exact minPosAux_const ps' x.pos hxle
    set mid := (orig.take q).drop x.pos with hmid
    have htake : ((orig.take q) ++ joinParts parts).take x.pos = orig.take x.pos := by
      rw [List.take_append_eq_append_take, htklen, Nat.sub_eq_zero_of_le hxq]
      simp [List.take_take, Nat.min_eq_left hxq]
    have hdrop : ((orig.take q) ++ joinParts parts).drop x.pos = mid ++ joinParts parts := by
      rw [List.drop_append_eq_append_drop, htklen, Nat.sub_eq_zero_of_le hxq]
      simp [hmid]
    have hdorig : orig.drop x.pos = mid ++ orig.drop q := by
      conv =>
        lhs
        rw [← List.take_append_drop q orig]
      rw [List.drop_append_eq_append_drop, htklen, Nat.sub_eq_zero_of_le hxq]
      simp [hmid]
    refine ⟨(tagOf x, mid) :: parts, ?_, ?_, ?_⟩
    · rw [List.foldl_append]
      simp only [List.foldl_cons, List.foldl_nil]
      rw [show ∀ (t : List Char), insertTag t x = t.take x.pos ++ tagOf x ++ t.drop x.pos
            from fun t => rfl]
      rw [heq, htake, hdrop, hminx]
      unfold joinParts
      simp [List.append_assoc]
    · rw [hminx, hdorig, hsnd]
      unfold joinSnd
      simp
    · intro pr hpr
      rcases List.mem_cons.mp hpr with h1 | h1
      · exact ⟨x, List.mem_append_right _ (List.mem_singleton.mpr rfl), by rw [h1]⟩
      · obtain ⟨y, hy, hy2⟩ := htags pr h1
        exact ⟨y, List.mem_append_left _ hy, hy2⟩

/-- Membership in the inner occurrence fold of `positionsOf`. -/
theorem occFold_mem (nm : List Char) (l : List (Nat × Nat)) :
    ∀ (acc : List Pos) (p : Pos),
      p ∈ l.foldl (fun acc2 occ =>
        acc2 ++ [Pos.mk occ.1 true nm, Pos.mk occ.2 false nm]) acc →
      p ∈ acc ∨ ∃ occ ∈ l, p = Pos.mk occ.1 true nm ∨ p = Pos.mk occ.2 false nm := by
  induction l with
  | nil => exact fun acc p hp => Or.inl hp
  | cons o t ih =>
    intro acc p hp
    simp only [List.foldl_cons] at hp
    rcases ih _ p hp with h1 | h1
    · rcases List.mem_append.mp h1 with h2 | h2
      · exact Or.inl h2
      · rcases List.mem_cons.mp h2 with h3 | h3
        · exact Or.inr ⟨o, List.mem_cons_self _ _, Or.inl h3⟩
        · exact Or.inr ⟨o, List.mem_cons_self _ _, Or.inr (List.mem_singleton.mp h3)⟩
    · obtain ⟨occ, hocc, hp2⟩ := h1
      exact Or.inr ⟨occ, List.mem_cons.mpr (Or.inr hocc), hp2⟩

/-- Membership in `positionsOf`. -/
theorem positionsOf_mem (ge : List (List Char × List (Nat × Nat))) :
    ∀ (acc : List Pos) (p : Pos),
      p ∈ ge.foldl (fun acc g => acc ++ g.2.foldl (fun acc2 occ =>
        acc2 ++ [Pos.mk occ.1 true g.1, Pos.mk occ.2 false g.1]) []) acc →
      p ∈ acc ∨ ∃ g ∈ ge, ∃ occ ∈ g.2,
        p = Pos.mk occ.1 true g.1 ∨ p = Pos.mk occ.2 false g.1 := by
  induction ge with
  | nil => exact fun acc p hp => Or.inl hp
  | cons g t ih =>
    intro acc p hp
    simp only [List.foldl_cons] at hp
    rcases ih _ p hp with h1 | h1
    · rcases List.mem_append.mp h1 with h2 | h2
      · exact Or.inl h2
      · rcases occFold_mem g.1 g.2 [] p h2 with h3 | h3
        · cases h3
        · obtain ⟨occ, hocc, hp2⟩ := h3
          exact Or.inr ⟨g, List.mem_cons_self _ _, occ, hocc, hp2⟩
    · obtain ⟨g', hg', rest⟩ := h1
      exact Or.inr ⟨g', List.mem_cons.mpr (Or.inr hg'), rest⟩

end Annot

/-- C10: for every original text and every grouped-entity mapping whose
occurrences satisfy `start ≤ end ≤ length` and whose entity names contain
no angle brackets, the annotated text decomposes as the original prefix
followed by alternating inserted tags and original segments; deleting the
inserted tags therefore reproduces exactly the original text. -/
theorem C10_tag_insertion_roundtrip (orig : List Char)
    (ge : List (List Char × List (Nat × Nat)))
    (hvalid : ∀ g ∈ ge, ∀ occ ∈ g.2, occ.1 ≤ occ.2 ∧ occ.2 ≤ orig.length)
    (hname : ∀ g ∈ ge, '<' ∉ g.1 ∧ '>' ∉ g.1) :
    ∃ (pre : List Char) (parts : List (List Char × List Char)),
      (∀ pr ∈ parts, Annot.IsTag pr.1) ∧
      Annot.create_annotated_text orig ge = pre ++ Annot.joinParts parts ∧
      pre ++ Annot.joinSnd parts = orig := by
  have hb : ∀ p ∈ Annot.sortPosDesc (Annot.positionsOf ge), p.pos ≤ orig.length := by
    intro p hp
    have hp2 := Annot.mem_sortPosDesc _ p hp
    rcases Annot.positionsOf_mem ge [] p hp2 with h1 | h1
    · cases h1
    · obtain ⟨g, hg, occ, hocc, hp3⟩ := h1
      have hv := hvalid g hg occ hocc
      rcases hp3 with h2 | h2
      · rw [h2]
        exact Nat.le_trans hv.1 hv.2
      · rw [h2]
        exact hv.2
  have hs := Annot.pairwise_sortPosDesc (Annot.positionsOf ge)
  obtain ⟨parts, heq, hsnd, htags⟩ :=
    Annot.foldl_insertTag_decomp orig (Annot.sortPosDesc (Annot.positionsOf ge)) hb hs
  refine ⟨orig.take (Annot.minPosAux (Annot.sortPosDesc (Annot.positionsOf ge)) orig.length),
          parts, ?_, heq, ?_⟩
  · intro pr hpr
    obtain ⟨x, _, hx⟩ := htags pr hpr
    rw [hx]
    unfold Annot.tagOf
    by_cases hxs : x.isStart
    · rw [if_pos hxs]
      exact Or.inr ⟨x.name, rfl⟩
    · rw [if_neg hxs]
      exact Or.inl rfl
  · rw [← hsnd]
    exact List.take_append_drop _ _

/-- The concrete text used to witness C10. -/
def origW_C10 : List Char := "Ola Maria aqui".toList

/-- The concrete grouped-entity mapping used to witness C10: one entity
`Maria` occurring at offsets `[4, 9)`. -/
def geW_C10 : List (List Char × List (Nat × Nat)) := [("Maria".toList, [(4, 9)])]

/-- Witness for C10 at a concrete text and one-entity mapping. -/
theorem C10_tag_insertion_roundtrip_witness :
    (∀ g ∈ geW_C10, ∀ occ ∈ g.2, occ.1 ≤ occ.2 ∧ occ.2 ≤ origW_C10.length) ∧
    (∀ g ∈ geW_C10, '<' ∉ g.1 ∧ '>' ∉ g.1) ∧
    (∃ (pre : List Char) (parts : List (List Char × List Char)),
      (∀ pr ∈ parts, Annot.IsTag pr.1) ∧
      Annot.create_annotated_text origW_C10 geW_C10 = pre ++ Annot.joinParts parts ∧
      pre ++ Annot.joinSnd parts = origW_C10) :=
  ⟨by decide, by decide,
   C10_tag_insertion_roundtrip origW_C10 geW_C10 (by decide) (by decide)⟩

namespace NameNormalizer

/-- A successful lookup comes from a binding of the map. -/
theorem lookupKey_mem (m : List (String × Nat)) (k : String) (v : Nat)
    (h : lookupKey m k = some v) : ∃ p ∈ m, p.2 = v := by
  induction m with
  | nil => cases h
  | cons p t ih =>
    unfold lookupKey at h
    by_cases hp : p.1 = k
    · rw [if_pos hp] at h
      exact ⟨p, List.mem_cons_self _ _, Option.some.inj h⟩
    · rw [if_neg hp] at h
      obtain ⟨q, hq, hv⟩ := ih h
      exact ⟨q, List.mem_cons.mpr (Or.inr hq), hv⟩

/-- `getD` at an in-range index is a member. -/
theorem getD_mem (l : List Entry) (i : Nat) (d : Entry) (h : i < l.length) :
    l.getD i d ∈ l := by
  have heq : l.getD i d = l.get ⟨i, h⟩ := by
    simp [List.getD, List.getElem?_eq_getElem h, List.get_eq_getElem]
  rw [heq]
  exact List.get_mem _ i h

/-- Resolver-state sanity established by construction: every map binding
points inside the record store, and every stored name is non-empty. -/
def GoodState (st : NState) : Prop :=
  (∀ p ∈ st.norm_to_canonical, p.2 < st.records.length) ∧
  (∀ e ∈ st.records, e.canonical_name ≠ "" ∧ ∀ v ∈ e.original_names, v ≠ "")

/-- The fresh resolver is sane. -/
theorem goodState_init : GoodState initState :=
  ⟨fun p hp => absurd hp (List.not_mem_nil p), fun e he => absurd he (List.not_mem_nil e)⟩

/-- On a sane state, resolving a non-empty name yields a non-empty
canonical string and preserves sanity. -/
theorem gcn_good (st : NState) (name : String) (hg : GoodState st) (h0 : name ≠ "") :
    (∃ s, (get_canonical_name st name).1 = some s ∧ s ≠ "") ∧
    GoodState ((get_canonical_name st name).2) := by
  cases hn : normalize name with
  | none =>
    rw [gcn_normfail st name h0 hn]
    exact ⟨⟨name, rfl, h0⟩, hg⟩
  | some key =>
    by_cases h2 : key ∈ st.conflicts
    · rw [gcn_conflict st name key hn h2]
      exact ⟨⟨name, rfl, h0⟩, hg⟩
    · have mergeGood : ∀ mk rid, lookupKey st.norm_to_canonical mk = some rid →
          (∃ s, (mergeWith st key name mk).1 = some s ∧ s ≠ "") ∧
          GoodState ((mergeWith st key name mk).2) := by
        intro mk rid hm
        rw [mergeWith_some st key name mk rid hm]
        obtain ⟨pb, hpb, hpb2⟩ := lookupKey_mem _ _ _ hm
        have hrid : rid < st.records.length := hpb2 ▸ hg.1 pb hpb
        have hemem : st.records.getD rid defaultEntry ∈ st.records := getD_mem _ _ _ hrid
        have hegood := hg.2 _ hemem
        have hvars : ∀ v ∈ setInsert (st.records.getD rid defaultEntry).original_names name,
            v ≠ "" := by
          intro v hv
          rcases mem_setInsert _ _ _ hv with h1 | h1
          · exact hegood.2 v h1
          · exact h1 ▸ h0
        have hmax : maxByLen (setInsert (st.records.getD rid defaultEntry).original_names name)
            ≠ "" :=
          hvars _ (maxByLen_mem _ (setInsert_ne_nil _ _))
        refine ⟨⟨_, rfl, hmax⟩, ?_, ?_⟩
        · intro p hp
          simp only [List.length_set]
          rcases List.mem_append.mp hp with h1 | h1
          · exact hg.1 p h1
          · rw [List.mem_singleton.mp h1]
            exact hrid
        · intro e he
          rcases List.mem_or_eq_of_mem_set he with h1 | h1
          · exact hg.2 e h1
          · rw [h1]
            exact ⟨hmax, hvars⟩
      cases h3 : lookupKey st.norm_to_canonical key with
      | some rid =>
        rw [gcn_direct st name key rid hn h2 h3]
        simp only []
        obtain ⟨pb, hpb, hpb2⟩ := lookupKey_mem _ _ _ h3
        have hrid : rid < st.records.length := hpb2 ▸ hg.1 pb hpb
        have hemem : st.records.getD rid defaultEntry ∈ st.records := getD_mem _ _ _ hrid
        have hegood := hg.2 _ hemem
        have hc : (if (st.records.getD rid defaultEntry).canonical_name.length < name.length
            then name else (st.records.getD rid defaultEntry).canonical_name) ≠ "" := by
          by_cases hlt : (st.records.getD rid defaultEntry).canonical_name.length < name.length
          · rw [if_pos hlt]
            exact h0
          · rw [if_neg hlt]
            exact hegood.1
        refine ⟨⟨_, rfl, hc⟩, ?_, ?_⟩
        · intro p hp
          simp only [List.length_set]
          exact hg.1 p hp
        · intro e he
          rcases List.mem_or_eq_of_mem_set he with h1 | h1
          · exact hg.2 e h1
          · rw [h1]
            refine ⟨hc, ?_⟩
            intro v hv
            rcases mem_setInsert _ _ _ hv with h4 | h4
            · exact hegood.2 v h4
            · exact h4 ▸ h0
      | none =>
        cases h4 : potentialMatches st key with
        | nil =>
          rw [gcn_new st name key hn h2 h3 h4]
          refine ⟨⟨name, rfl, h0⟩, ?_, ?_⟩
          · intro p hp
            simp only [List.length_append, List.length_singleton]
            rcases List.mem_append.mp hp with h1 | h1
            · exact Nat.lt_succ_of_lt (hg.1 p h1)
            · rw [List.mem_singleton.mp h1]
              exact Nat.lt_succ_self _
          · intro e he
            rcases List.mem_append.mp he with h1 | h1
            · exact hg.2 e h1
            · rw [List.mem_singleton.mp h1]
              exact ⟨h0, fun v hv => (List.mem_singleton.mp hv) ▸ h0⟩
        | cons p0 ptail =>
          cases ptail with
          | nil =>
            obtain ⟨rid0, hm0⟩ := potentialMatches_lookup st key p0
              (by rw [h4]; exact List.mem_cons_self _ _)
            rw [gcn_one st name key p0 hn h2 h3 h4]
            exact mergeGood p0.1 rid0 hm0
          | cons p1 prest =>
            obtain ⟨s0, s1, srest, h5⟩ := sortDesc_two p0 p1 prest
            rw [gcn_many st name key p0 p1 prest s0 s1 srest hn h2 h3 h4 h5]
            by_cases hmg : s1.2 + 10 ≤ s0.2
            · rw [if_pos hmg]
              have hs0mem : s0 ∈ potentialMatches st key := by
                rw [h4]
                exact mem_of_mem_sortDesc _ _ (by rw [h5]; exact List.mem_cons_self _ _)
              obtain ⟨rid0, hm0⟩ := potentialMatches_lookup st key s0 hs0mem
              exact mergeGood s0.1 rid0 hm0
            · rw [if_neg hmg]
              exact ⟨⟨name, rfl, h0⟩, hg.1, hg.2⟩

end NameNormalizer

namespace Pipeline

open NameNormalizer

/-- Tag names captured by `findTagsGo` are non-empty (`[^>]+` requires at
least one character). -/
theorem findTagsGo_ne (fuel : Nat) : ∀ (cs : List Char) (t : String),
    t ∈ findTagsGo fuel cs → t ≠ "" := by
  induction fuel with
  | zero =>
    intro cs t ht
    cases ht
  | succ n ih =>
    intro cs t ht
    cases cs with
    | nil => cases ht
    | cons c rest =>
      unfold findTagsGo at ht
      by_cases hpre : ("<PESSOA:".toList.isPrefixOf (c :: rest)) = true
      · rw [if_pos hpre] at ht
        dsimp only [] at ht
        split at ht
        · rename_i nm r2 head tail r3 heq1 heq2
          rcases List.mem_cons.mp ht with h1 | h1
          · rw [h1, heq1]
            intro hcon
            have h2 := congrArg String.data hcon
            simp at h2
          · exact ih _ t h1
        · exact ih rest t ht
      · rw [if_neg hpre] at ht
        exact ih rest t ht

/-- Every tag name of a speech is non-empty. -/
theorem findPessoaTags_ne (s : String) (t : String) (ht : t ∈ findPessoaTags s) :
    t ≠ "" :=
  findTagsGo_ne _ _ t ht

/-- Membership survives `pyDedup`. -/
theorem mem_pyDedup (l : List String) (x : String) (h : x ∈ pyDedup l) : x ∈ l := by
  induction l generalizing x with
  | nil => cases h
  | cons a t ih =>
    unfold pyDedup at h
    rcases List.mem_cons.mp h with h1 | h1
    · exact h1 ▸ List.mem_cons_self _ _
    · exact List.mem_cons.mpr (Or.inr (ih x (List.mem_filter.mp h1).1))

/-- A produced speech segment is good: the speaker, when present, is a
non-empty string, and every listed mention is non-empty and distinct from
the speaker. -/
def PairGood (p : Option String × List String) : Prop :=
  (∀ s, p.1 = some s → s ≠ "") ∧ (∀ m ∈ p.2, m ≠ "" ∧ p.1 ≠ some m)

/-- Equations for `mentionStep`. -/
theorem mentionStep_none (spk : Option String) (acc : List String × NState) (m : String)
    (hr : (get_canonical_name acc.2 m).1 = none) :
    mentionStep spk acc m = (acc.1, (get_canonical_name acc.2 m).2) := by
  unfold mentionStep
  dsimp only []
  rw [hr]

/-- Equation for a kept mention. -/
theorem mentionStep_keep (spk : Option String) (acc : List String × NState) (m mc : String)
    (hr : (get_canonical_name acc.2 m).1 = some mc)
    (hcond : mc ≠ "" ∧ some mc ≠ spk) :
    mentionStep spk acc m = (acc.1 ++ [mc], (get_canonical_name acc.2 m).2) := by
  unfold mentionStep
  dsimp only []
  rw [hr]
  simp only [if_pos hcond]

/-- Equation for a dropped mention. -/
theorem mentionStep_drop (spk : Option String) (acc : List String × NState) (m mc : String)
    (hr : (get_canonical_name acc.2 m).1 = some mc)
    (hcond : ¬ (mc ≠ "" ∧ some mc ≠ spk)) :
    mentionStep spk acc m = (acc.1, (get_canonical_name acc.2 m).2) := by
  unfold mentionStep
  dsimp only []
  rw [hr]
  simp only [if_neg hcond]

/-- The mention fold keeps only non-empty mentions distinct from the
speaker, and preserves resolver sanity. -/
theorem mentionFold_good (spk : Option String) (ms : List String) :
    ∀ (acc : List String × NState),
      (∀ m ∈ acc.1, m ≠ "" ∧ spk ≠ some m) → GoodState acc.2 →
      (∀ m ∈ (ms.foldl (mentionStep spk) acc).1, m ≠ "" ∧ spk ≠ some m) ∧
      GoodState (ms.foldl (mentionStep spk) acc).2 := by
  induction ms with
  | nil => exact fun acc ha hacc => ⟨ha, hacc⟩
  | cons m mt ih =>
    intro acc ha hacc
    simp only [List.foldl_cons]
    have hgs : GoodState (get_canonical_name acc.2 m).2 := by
      by_cases hm0 : m = ""
      · rw [hm0, gcn_empty]
        exact hacc
      · exact (gcn_good acc.2 m hacc hm0).2
    cases hr : (get_canonical_name acc.2 m).1 with
    | none =>
      rw [mentionStep_none spk acc m hr]
      exact ih _ ha hgs
    | some mc =>
      by_cases hcond : mc ≠ "" ∧ some mc ≠ spk
      · rw [mentionStep_keep spk acc m mc hr hcond]
        refine ih _ ?_ hgs
        intro x hx
        rcases List.mem_append.mp hx with h1 | h1
        · exact ha x h1
        · rw [List.mem_singleton.mp h1]
          exact ⟨hcond.1, fun hcon => hcond.2 hcon.symm⟩
      · rw [mentionStep_drop spk acc m mc hr hcond]
        exact ih _ ha hgs

/-- `extract_speaker_and_mentions` yields a good segment and preserves
resolver sanity. -/
theorem extract_good (st : NState) (speech : String) (hg : GoodState st) :
    PairGood (extract_speaker_and_mentions st speech).1 ∧
    GoodState (extract_speaker_and_mentions st speech).2 := by
  unfold extract_speaker_and_mentions
  cases htags : findPessoaTags speech with
  | nil =>
    refine ⟨⟨?_, ?_⟩, hg⟩
    · intro s hs
      cases hs
    · intro m hm
      cases hm
  | cons sp rest =>
    simp only []
    have hsp : sp ≠ "" := findPessoaTags_ne speech sp (htags ▸ List.mem_cons_self _ _)
    obtain ⟨⟨sval, hsval, hsval2⟩, hg1⟩ := gcn_good st sp hg hsp
    obtain ⟨hms, hgend⟩ := mentionFold_good (get_canonical_name st sp).1 rest
      ([], (get_canonical_name st sp).2) (fun m hm => absurd hm (List.not_mem_nil m)) hg1
    refine ⟨⟨?_, ?_⟩, hgend⟩
    · intro s hs
      rw [hsval] at hs
      exact (Option.some.inj hs) ▸ hsval2
    · intro m hm
      exact hms m (mem_pyDedup _ m hm)

end Pipeline

namespace Pipeline

open NameNormalizer

/-- `incEdge` never changes the node list. -/
theorem incEdge_nodes (g : Graph) (u v : String) : (incEdge g u v).nodes = g.nodes := by
  unfold incEdge
  split
  · rfl
  · rfl

/-- `addNode` never changes the edge list. -/
theorem addNode_edges (g : Graph) (x : String) : (addNode g x).edges = g.edges := by
  unfold addNode
  split
  · rfl
  · rfl

/-- Node membership after `addNode`. -/
theorem addNode_mem (g : Graph) (x y : String) :
    y ∈ (addNode g x).nodes ↔ y ∈ g.nodes ∨ y = x := by
  unfold addNode
  by_cases h : x ∈ g.nodes
  · rw [if_pos h]
    constructor
    · exact fun hy => Or.inl hy
    · intro hy
      rcases hy with hy | hy
      · exact hy
      · exact hy ▸ h
  · rw [if_neg h]
    simp

/-- `incEdge` preserves positive weights and loop-freeness when the new
edge is not a loop. -/
theorem incEdge_good (g : Graph) (u v : String) (hne : u ≠ v)
    (hgood : ∀ e ∈ g.edges, 1 ≤ e.2.2 ∧ e.1 ≠ e.2.1) :
    ∀ e ∈ (incEdge g u v).edges, 1 ≤ e.2.2 ∧ e.1 ≠ e.2.1 := by
  unfold incEdge
  split
  · intro e he
    simp only [] at he
    obtain ⟨e0, he0, heq⟩ := List.mem_map.mp he
    by_cases hc : e0.1 = u ∧ e0.2.1 = v
    · rw [if_pos hc] at heq
      rw [← heq]
      exact ⟨Nat.le_add_left 1 _, (hgood e0 he0).2⟩
    · rw [if_neg hc] at heq
      rw [← heq]
      exact hgood e0 he0
  · intro e he
    rcases List.mem_append.mp he with h1 | h1
    · exact hgood e h1
    · rw [List.mem_singleton.mp h1]
      exact ⟨Nat.le_refl 1, hne⟩

/-- The mention fold of `processSegment` preserves the edge invariants. -/
theorem mfold_edges_good (s : String) (ms : List String) (hms : ∀ m ∈ ms, s ≠ m) :
    ∀ g : Graph, (∀ e ∈ g.edges, 1 ≤ e.2.2 ∧ e.1 ≠ e.2.1) →
    ∀ e ∈ (ms.foldl (fun gm m => if m = "" then gm else incEdge (addNode gm m) s m) g).edges,
      1 ≤ e.2.2 ∧ e.1 ≠ e.2.1 := by
  induction ms with
  | nil => exact fun g hg => hg
  | cons m mt ih =>
    intro g hg
    simp only [List.foldl_cons]
    have hms' : ∀ x ∈ mt, s ≠ x := fun x hx => hms x (List.mem_cons.mpr (Or.inr hx))
    by_cases hm : m = ""
    · rw [if_pos hm]
      exact ih hms' g hg
    · rw [if_neg hm]
      refine ih hms' _ ?_
      have := incEdge_good (addNode g m) s m (hms m (List.mem_cons_self _ _)) ?_
      · exact this
      · rw [addNode_edges]
        exact hg

/-- Node membership after the mention fold. -/
theorem mfold_nodes (s : String) (ms : List String) :
    ∀ (g : Graph) (y : String),
      y ∈ (ms.foldl (fun gm m => if m = "" then gm else incEdge (addNode gm m) s m) g).nodes ↔
      y ∈ g.nodes ∨ (y ∈ ms ∧ y ≠ "") := by
  induction ms with
  | nil =>
    intro g y
    simp
  | cons m mt ih =>
    intro g y
    simp only [List.foldl_cons]
    by_cases hm : m = ""
    · rw [if_pos hm]
      rw [ih g y]
      subst hm
      constructor
      · intro h
        rcases h with h | h
        · exact Or.inl h
        · exact Or.inr ⟨List.mem_cons.mpr (Or.inr h.1), h.2⟩
      · intro h
        rcases h with h | ⟨h1, h2⟩
        · exact Or.inl h
        · rcases List.mem_cons.mp h1 with h3 | h3
          · exact absurd h3 h2
          · exact Or.inr ⟨h3, h2⟩
    · rw [if_neg hm]
      rw [ih _ y]
      have hn : (incEdge (addNode g m) s m).nodes = (addNode g m).nodes := incEdge_nodes _ _ _
      rw [hn]
      rw [show ∀ h : Prop, (y ∈ (addNode g m).nodes ∨ h) ↔ ((y ∈ g.nodes ∨ y = m) ∨ h)
        from fun h => by rw [addNode_mem]]
      constructor
      · intro h
        rcases h with (h | h) | h
        · exact Or.inl h
        · exact Or.inr ⟨h ▸ List.mem_cons_self _ _, h ▸ hm⟩
        · exact Or.inr ⟨List.mem_cons.mpr (Or.inr h.1), h.2⟩
      · intro h
        rcases h with h | ⟨h1, h2⟩
        · exact Or.inl (Or.inl h)
        · rcases List.mem_cons.mp h1 with h3 | h3
          · exact Or.inl (Or.inr h3)
          · exact Or.inr ⟨h3, h2⟩

end Pipeline

namespace Pipeline

open NameNormalizer

/-- `x` appears in the collected segments as the resolved speaker of a
segment that has a speaker tag, or as a resolved non-speaker mention of
such a segment. -/
def appearsIn (segs : List (Option String × List String)) (x : String) : Prop :=
  ∃ p ∈ segs, (∃ s, p.1 = some s) ∧ (p.1 = some x ∨ x ∈ p.2)

/-- `appearsIn` over a cons. -/
theorem appearsIn_cons (p : Option String × List String)
    (t : List (Option String × List String)) (x : String) :
    appearsIn (p :: t) x ↔
      ((∃ s, p.1 = some s) ∧ (p.1 = some x ∨ x ∈ p.2)) ∨ appearsIn t x := by
  unfold appearsIn
  constructor
  · rintro ⟨q, hq, hq2⟩
    rcases List.mem_cons.mp hq with h1 | h1
    · exact Or.inl (h1 ▸ hq2)
    · exact Or.inr ⟨q, h1, hq2⟩
  · rintro (h | ⟨q, hq, hq2⟩)
    · exact ⟨p, List.mem_cons_self _ _, h⟩
    · exact ⟨q, List.mem_cons.mpr (Or.inr hq), hq2⟩

/-- `processSegment` preserves the edge invariants on good segments. -/
theorem processSegment_edges_good (g : Graph) (p : Option String × List String)
    (hp : PairGood p) (hg : ∀ e ∈ g.edges, 1 ≤ e.2.2 ∧ e.1 ≠ e.2.1) :
    ∀ e ∈ (processSegment g p).edges, 1 ≤ e.2.2 ∧ e.1 ≠ e.2.1 := by
  unfold processSegment
  cases hp1 : p.1 with
  | none =>
    simp only [truthy]
    exact hg
  | some s =>
    have hs : s ≠ "" := hp.1 s hp1
    simp only [truthy, hs]
    simp only [if_pos (by simp [hs] : (s ≠ "" : Bool) = true)]
    have hms : ∀ m ∈ p.2, s ≠ m := by
      intro m hm
      intro hcon
      exact (hp.2 m hm).2 (hp1.trans (congrArg some hcon))
    refine mfold_edges_good s p.2 hms (addNode g s) ?_
    rw [addNode_edges]
    exact hg

/-- Node membership after `processSegment` on a good segment. -/
theorem processSegment_nodes (g : Graph) (p : Option String × List String)
    (hp : PairGood p) (y : String) :
    y ∈ (processSegment g p).nodes ↔
      y ∈ g.nodes ∨ ((∃ s, p.1 = some s) ∧ (p.1 = some y ∨ y ∈ p.2)) := by
  unfold processSegment
  cases hp1 : p.1 with
  | none =>
    simp only [truthy]
    simp
  | some s =>
    have hs : s ≠ "" := hp.1 s hp1
    simp only [truthy, hs]
    simp only [if_pos (by simp [hs] : (s ≠ "" : Bool) = true)]
    rw [mfold_nodes s p.2 (addNode g s) y]
    rw [show ∀ h : Prop, (y ∈ (addNode g s).nodes ∨ h) ↔ ((y ∈ g.nodes ∨ y = s) ∨ h)
      from fun h => by rw [addNode_mem]]
    constructor
    · intro h
      rcases h with (h | h) | h
      · exact Or.inl h
      · exact Or.inr ⟨⟨s, rfl⟩, Or.inl (congrArg some h.symm)⟩
      · exact Or.inr ⟨⟨s, rfl⟩, Or.inr h.1⟩
    · intro h
      rcases h with h | ⟨_, h2 | h2⟩
      · exact Or.inl (Or.inl h)
      · exact Or.inl (Or.inr (Option.some.inj h2).symm)
      · exact Or.inr ⟨h2, (hp.2 y h2).1⟩

/-- Folding good segments preserves the edge invariants. -/
theorem segsFold_edges_good (segs : List (Option String × List String))
    (hsegs : ∀ p ∈ segs, PairGood p) :
    ∀ g : Graph, (∀ e ∈ g.edges, 1 ≤ e.2.2 ∧ e.1 ≠ e.2.1) →
    ∀ e ∈ (segs.foldl processSegment g).edges, 1 ≤ e.2.2 ∧ e.1 ≠ e.2.1 := by
  induction segs with
  | nil => exact fun g hg => hg
  | cons p t ih =>
    intro g hg
    simp only [List.foldl_cons]
    exact ih (fun q hq => hsegs q (List.mem_cons.mpr (Or.inr hq))) _
      (processSegment_edges_good g p (hsegs p (List.mem_cons_self _ _)) hg)

/-- Node membership after folding good segments. -/
theorem segsFold_nodes (segs : List (Option String × List String))
    (hsegs : ∀ p ∈ segs, PairGood p) :
    ∀ (g : Graph) (y : String),
      y ∈ (segs.foldl processSegment g).nodes ↔ y ∈ g.nodes ∨ appearsIn segs y := by
  induction segs with
  | nil =>
    intro g y
    simp [appearsIn]
  | cons p t ih =>
    intro g y
    simp only [List.foldl_cons]
    rw [ih (fun q hq => hsegs q (List.mem_cons.mpr (Or.inr hq))) _ y,
      processSegment_nodes g p (hsegs p (List.mem_cons_self _ _)) y, appearsIn_cons]
    tauto

end Pipeline

namespace Pipeline

open NameNormalizer

/-- The collecting fold over speeches with a non-empty accumulator. -/
theorem segStep_acc (sps : List String) :
    ∀ (st : NState) (l : List (Option String × List String)),
      sps.foldl segStep (st, l) =
        ((sps.foldl segStep (st, [])).1, l ++ (sps.foldl segStep (st, [])).2) := by
  induction sps with
  | nil =>
    intro st l
    simp
  | cons sp t ih =>
    intro st l
    simp only [List.foldl_cons, segStep, List.nil_append]
    rw [ih _ (l ++ [(extract_speaker_and_mentions st sp).1]),
      ih _ [(extract_speaker_and_mentions st sp).1]]
    simp [List.append_assoc]

/-- The collecting fold over documents with a non-empty accumulator. -/
theorem segDoc_acc (docs : List String) :
    ∀ (st : NState) (l : List (Option String × List String)),
      docs.foldl segDoc (st, l) =
        ((docs.foldl segDoc (st, [])).1, l ++ (docs.foldl segDoc (st, [])).2) := by
  induction docs with
  | nil =>
    intro st l
    simp
  | cons d t ih =>
    intro st l
    simp only [List.foldl_cons, segDoc]
    rw [segStep_acc (split_into_speeches d) st l]
    generalize List.foldl segStep (st, []) (split_into_speeches d) = X
    obtain ⟨st1, segs1⟩ := X
    rw [ih st1 (l ++ segs1), ih st1 segs1]
    simp [List.append_assoc]

/-- Per-speech bridge: the graph-building fold equals segment collection
followed by `processSegment` folding. -/
theorem speeches_bridge (sps : List String) :
    ∀ (st : NState) (g : Graph),
      sps.foldl graphStep (st, g) =
        ((sps.foldl segStep (st, [])).1,
         ((sps.foldl segStep (st, [])).2).foldl processSegment g) := by
  induction sps with
  | nil =>
    intro st g
    simp
  | cons sp t ih =>
    intro st g
    simp only [List.foldl_cons, graphStep, segStep, List.nil_append]
    rw [ih _ _, segStep_acc t _ [(extract_speaker_and_mentions st sp).1]]
    simp [List.foldl_cons]

/-- Per-corpus bridge. -/
theorem docs_bridge (docs : List String) :
    ∀ (st : NState) (g : Graph),
      docs.foldl processDoc (st, g) =
        ((docs.foldl segDoc (st, [])).1,
         ((docs.foldl segDoc (st, [])).2).foldl processSegment g) := by
  induction docs with
  | nil =>
    intro st g
    simp
  | cons d t ih =>
    intro st g
    simp only [List.foldl_cons, processDoc, segDoc]
    rw [speeches_bridge _ st g, ih _ _,
      segDoc_acc t _ ((List.foldl segStep (st, []) (split_into_speeches d)).2)]
    simp [List.foldl_append]

/-- `create_graph` equals folding the collected segments into the empty
graph. -/
theorem create_graph_eq (docs : List String) :
    create_graph docs = (corpusSegments docs).foldl processSegment emptyGraph := by
  unfold create_graph corpusSegments
  rw [docs_bridge docs initState emptyGraph]

/-- The collected segments of a speech list are good and the resolver
stays sane. -/
theorem speeches_good (sps : List String) :
    ∀ (st : NState) (l : List (Option String × List String)),
      GoodState st → (∀ p ∈ l, PairGood p) →
      GoodState (sps.foldl segStep (st, l)).1 ∧
      ∀ p ∈ (sps.foldl segStep (st, l)).2, PairGood p := by
  induction sps with
  | nil => exact fun st l hst hl => ⟨hst, hl⟩
  | cons sp t ih =>
    intro st l hst hl
    simp only [List.foldl_cons, segStep]
    obtain ⟨hpg, hgs⟩ := extract_good st sp hst
    refine ih _ _ hgs ?_
    intro p hp
    rcases List.mem_append.mp hp with h1 | h1
    · exact hl p h1
    · exact (List.mem_singleton.mp h1) ▸ hpg

/-- The collected segments of a whole corpus are good. -/
theorem docs_good (docs : List String) :
    ∀ (st : NState) (l : List (Option String × List String)),
      GoodState st → (∀ p ∈ l, PairGood p) →
      GoodState (docs.foldl segDoc (st, l)).1 ∧
      ∀ p ∈ (docs.foldl segDoc (st, l)).2, PairGood p := by
  induction docs with
  | nil => exact fun st l hst hl => ⟨hst, hl⟩
  | cons d t ih =>
    intro st l hst hl
    simp only [List.foldl_cons, segDoc]
    obtain ⟨hgs, hsegs⟩ := speeches_good (split_into_speeches d) st l hst hl
    exact ih _ _ hgs hsegs

/-- Every collected segment of a run is good. -/
theorem corpusSegments_good (docs : List String) :
    ∀ p ∈ corpusSegments docs, PairGood p := by
  unfold corpusSegments
  exact (docs_good docs initState [] goodState_init
    (fun p hp => absurd hp (List.not_mem_nil p))).2

end Pipeline

/-- C5: for every corpus, the built graph's edges all have weight at
least 1, no edge is a self-loop, and the node set is exactly the set of
canonical names that appeared in the run as the resolved speaker of a
segment with a speaker tag or as a resolved non-speaker mention of such a
segment. -/
theorem C5_graph_invariants (docs : List String) :
    (∀ e ∈ (Pipeline.create_graph docs).edges, 1 ≤ e.2.2 ∧ e.1 ≠ e.2.1) ∧
    (∀ x : String, x ∈ (Pipeline.create_graph docs).nodes ↔
      Pipeline.appearsIn (Pipeline.corpusSegments docs) x) := by
  rw [Pipeline.create_graph_eq docs]
  have hpg := Pipeline.corpusSegments_good docs
  constructor
  · exact Pipeline.segsFold_edges_good _ hpg Pipeline.emptyGraph
      (fun e he => absurd he (List.not_mem_nil e))
  · intro x
    rw [Pipeline.segsFold_nodes _ hpg Pipeline.emptyGraph x]
    simp [Pipeline.emptyGraph]
